import Mathlib

/-!
# Archive::Tar::Builder: the file-list line reader and the tar header layout

A shallow embedding of `src/line_reader.c` (the self-sizing line reader) and of
the constants and record layouts of `src/b_header.h`, with the properties the
specification states about them.

Conventions of the embedding:

* a byte is a `Nat`; a C string read from memory stops at the first zero byte;
* a pointer into the reader's buffer is its offset from `buff`; the buffer is
  the list of the bytes of its allocation, `[]` standing for `NULL`;
* `size_t` arithmetic is taken modulo `2 ^ size_bits`;
* the C library (`fread`, `ferror`, `feof`, `realloc`, `strcspn`, `memmove`,
  `printf`) is modelled by small functions placed next to the code using them.
-/

namespace ArchiveTarBuilder

/-! ## The C library as the line reader uses it -/

/-- A stdio input stream: the bytes it has not delivered yet, whether it ends
in a read error (`bad`) instead of an end of file, and its two indicators. -/
structure FILE where
  data : List Nat
  bad : Bool
  eof : Bool
  err : Bool
deriving DecidableEq, Repr

/-- The call `fread(ptr, 1, n, f)`: the bytes delivered and the stream after
the call. A request the stream can satisfy is satisfied whole; a short count
happens only at the end of the stream, and sets the end-of-file indicator, or
the error indicator when the stream ends in a read error. -/
def fread (n : Nat) (f : FILE) : List Nat × FILE :=
  if n ≤ f.data.length then
    (f.data.take n, { f with data := f.data.drop n })
  else
    (f.data, { f with data := [], eof := f.eof || !f.bad, err := f.err || f.bad })

/-- The stream `fopen` gives on a readable file of the given content. -/
def fopen (content : List Nat) : FILE :=
  { data := content, bad := false, eof := false, err := false }

/-- The call `ferror(f)`. -/
def ferror (f : FILE) : Bool := f.err

/-- The call `feof(f)`. -/
def feof (f : FILE) : Bool := f.eof

/-- The call `strcspn(s, reject)` on the bytes found at `s`: the length of the
longest initial segment holding neither a byte of `reject` nor the zero byte
that ends the string. -/
def strcspn (s : List Nat) (reject : List Nat) : Nat :=
  match s with
  | [] => 0
  | c :: cs => if c = 0 ∨ c ∈ reject then 0 else strcspn cs reject + 1

/-- The C string found at the start of `s`: the bytes before the first zero. -/
def c_string : List Nat → List Nat
  | [] => []
  | c :: cs => if c = 0 then [] else c :: c_string cs

/-- The call `memmove(buff, buff + src, n)` on the buffer `m`. -/
def memmove (m : List Nat) (src n : Nat) : List Nat :=
  ((m.drop src).take n) ++ m.drop n

/-- The call `realloc(old, size)` with `avail` bytes of memory obtainable:
`none` is `NULL`; on success the old contents are kept and the bytes gained
hold `junk`. -/
def realloc (old : List Nat) (size avail junk : Nat) : Option (List Nat) :=
  if size ≤ avail then
    some ((old ++ List.replicate (size - old.length) junk).take size)
  else
    none

/-- Storing `bytes` at offset `at_` of the buffer `m`. -/
def store (m : List Nat) (at_ : Nat) (bytes : List Nat) : List Nat :=
  m.take at_ ++ bytes ++ m.drop (at_ + bytes.length)

/-! ## `struct lafe_line_reader` and its functions -/

/-- The record `struct lafe_line_reader`. The pointers `buff_end`, `line_start`,
`line_end` and `p` are offsets from `buff`. The last three fields are not in
the C record: they are the machine the reader runs on (the width of `size_t`,
the memory `realloc` can obtain, the contents of fresh memory). -/
structure struct_lafe_line_reader where
  f : Option FILE
  buff : List Nat
  buff_end : Nat
  line_start : Nat
  line_end : Nat
  p : Nat
  pathname : List Nat
  buff_length : Nat
  nullSeparator : Int
  ret : Int
  size_bits : Nat
  heap_avail : Nat
  junk : Nat
deriving DecidableEq, Repr

/-- The function `lafe_line_reader(pathname, nullSeparator)` once `calloc`
has succeeded; `stream` is what `fopen` (or `stdin`) gives, `none` when the
file cannot be opened, in which case the function returns `NULL`. -/
def lafe_line_reader (pathname : List Nat) (stream : Option FILE) (nullSeparator : Int)
    (size_bits heap_avail junk : Nat) : Option struct_lafe_line_reader :=
  match stream with
  | none => none
  | some f =>
    some { f := some f, buff := [], buff_end := 0, line_start := 0, line_end := 0,
           p := 0, pathname := pathname, buff_length := 8192,
           nullSeparator := nullSeparator, ret := 0,
           size_bits := size_bits, heap_avail := heap_avail, junk := junk }

/-- A reader as `lafe_line_reader` leaves it, on the stream `f`, but with
`buff_length` set to `L`: the means to look at refills on short inputs. -/
def reader_on (f : FILE) (nullSeparator : Int) (L size_bits heap_avail : Nat) :
    struct_lafe_line_reader :=
  { f := some f, buff := [], buff_end := 0, line_start := 0, line_end := 0,
    p := 0, pathname := [45], buff_length := L,
    nullSeparator := nullSeparator, ret := 0,
    size_bits := size_bits, heap_avail := heap_avail, junk := 255 }

/-- The function `lafe_line_reader_find_eol`. -/
def lafe_line_reader_find_eol (lr : struct_lafe_line_reader) : struct_lafe_line_reader :=
  let line_end := lr.line_end +
    strcspn (lr.buff.drop lr.line_end) (if lr.nullSeparator ≠ 0 then [] else [0x0d, 0x0a])
  { lr with line_end := line_end, buff := lr.buff.set line_end 0 }

/-- The inner `while (lr->line_end < lr->buff_end)` loop of
`lafe_line_reader_next`. The result is `none` when the fuel runs out, else the
pointer returned from inside the loop (`none` when the loop ends without
returning) and the reader. -/
def next_while : Nat → struct_lafe_line_reader → Option (Option Nat × struct_lafe_line_reader)
  | 0, _ => none
  | fuel + 1, lr =>
    if lr.line_end < lr.buff_end then
      let line_start := lr.line_start
      let lr1 := { lr with line_end := lr.line_end + 1, line_start := lr.line_end + 1 }
      let lr2 := lafe_line_reader_find_eol lr1
      if lr2.nullSeparator ≠ 0 ∨ lr2.buff.getD line_start 0 ≠ 0 then
        some (some line_start, lr2)
      else
        next_while fuel lr2
    else
      some (none, lr)

/-- The first half of a refill in `lafe_line_reader_next`: a leftover
fractional line is moved to the front of the buffer, or else the buffer is
doubled. The flag is `false` on the two paths that return -1. -/
def next_make_room (lr : struct_lafe_line_reader) : Bool × struct_lafe_line_reader :=
  if lr.line_start > 0 then
    (true, { lr with
      buff := memmove lr.buff lr.line_start (lr.buff_end - lr.line_start),
      buff_end := lr.buff_end - lr.line_start,
      line_end := lr.line_end - lr.line_start,
      line_start := 0 })
  else
    let new_buff_size := (lr.buff_length * 2) % 2 ^ lr.size_bits
    if new_buff_size ≤ lr.buff_length then
      (false, lr)
    else
      let lr1 := { lr with buff_length := new_buff_size }
      match realloc lr1.buff ((new_buff_size + 1) % 2 ^ lr1.size_bits) lr1.heap_avail lr1.junk with
      | none => (false, lr1)
      | some p => (true, { lr1 with line_start := 0, buff := p })

/-- The second half of a refill: `fread` into the free end of the buffer,
terminate the buffer, look for the end of the line. -/
def next_fill (lr : struct_lafe_line_reader) (f : FILE) : struct_lafe_line_reader :=
  let bytes_wanted := lr.buff_length - lr.buff_end
  let r := fread bytes_wanted f
  let lr1 := { lr with
    f := some r.2,
    buff := store lr.buff lr.buff_end r.1,
    buff_end := lr.buff_end + r.1.length }
  let lr2 := { lr1 with buff := lr1.buff.set lr1.buff_end 0 }
  lafe_line_reader_find_eol lr2

/-- The refill of `lafe_line_reader_next`, from "Buffer only has part of a
line" to the end of the loop body. The flag is `false` when the function
returns -1 (`*next` is then `NULL`), `true` when the loop goes round again. -/
def next_refill (lr : struct_lafe_line_reader) (f : FILE) : Bool × struct_lafe_line_reader :=
  match next_make_room lr with
  | (false, lr2) => (false, lr2)
  | (true, lr2) =>
    let lr3 := next_fill lr2 f
    let f3 := (fread (lr2.buff_length - lr2.buff_end) f).2
    if ferror f3 then
      (false, lr3)
    else if feof f3 then
      (true, { lr3 with f := none })
    else
      (true, lr3)

/-- The `for (;;)` loop of `lafe_line_reader_next`: `none` when the fuel runs
out, else the status returned, the pointer stored in `*next` (`none` for
`NULL`) and the reader after the call. -/
def next_loop : Nat → struct_lafe_line_reader → Option (Int × Option Nat × struct_lafe_line_reader)
  | 0, _ => none
  | fuel + 1, lr =>
    match next_while (lr.buff_end - lr.line_end + 1) lr with
    | none => none
    | some (some line_start, lr1) => some (0, some line_start, lr1)
    | some (none, lr1) =>
      match lr1.f with
      | none =>
        if lr1.line_start = lr1.buff_end then
          some (0, none, lr1)
        else
          some (0, some lr1.line_start, { lr1 with line_start := lr1.buff_end })
      | some f =>
        match next_refill lr1 f with
        | (false, lr3) => some (-1, none, lr3)
        | (true, lr3) => next_loop fuel lr3

/-- Fuel that lets the `for (;;)` loop of one call run to its return: every
refill that does not end the call takes at least one byte from the stream. -/
def next_fuel (lr : struct_lafe_line_reader) : Nat :=
  match lr.f with
  | none => 1
  | some f => f.data.length + 2

/-- The function `lafe_line_reader_next(lr, next)`: the status, `*next` and
the reader after the call. -/
def lafe_line_reader_next (lr : struct_lafe_line_reader) :
    Option (Int × Option Nat × struct_lafe_line_reader) :=
  next_loop (next_fuel lr) lr

/-- The caller's loop: successive calls of `lafe_line_reader_next`, each
returned string read at once at the pointer it got, up to the first call that
stores `NULL`. The result is the strings, the status of that last call and the
reader left behind; `none` when `calls` calls saw no `NULL`. -/
def read_lines : Nat → struct_lafe_line_reader →
    Option (List (List Nat) × Int × struct_lafe_line_reader)
  | 0, _ => none
  | calls + 1, lr =>
    match lafe_line_reader_next lr with
    | none => none
    | some (status, none, lr1) => some ([], status, lr1)
    | some (_, some q, lr1) =>
      match read_lines calls lr1 with
      | none => none
      | some (ls, status, lr2) => some (c_string (lr1.buff.drop q) :: ls, status, lr2)

/-- Calling `lafe_line_reader_next` again and again: the result of the call
that follows `k` calls. -/
def call_again : Nat → struct_lafe_line_reader →
    Option (Int × Option Nat × struct_lafe_line_reader)
  | 0, lr => lafe_line_reader_next lr
  | k + 1, lr =>
    match lafe_line_reader_next lr with
    | none => none
    | some (_, _, lr1) => call_again k lr1

/-! ## The memory a call touches

The functions above read and write the buffer as a list, which has no out of
bounds. The predicates below follow the same statements and tell whether each
access lands inside the bytes allocated, `lr.buff.length` of them. -/

/-- In `lafe_line_reader_find_eol`: the bytes `strcspn` reads and the byte
`*lr->line_end = 0` writes are inside the allocation. -/
def find_eol_inside (lr : struct_lafe_line_reader) : Bool :=
  decide (lr.line_end +
    strcspn (lr.buff.drop lr.line_end) (if lr.nullSeparator ≠ 0 then [] else [0x0d, 0x0a])
      < lr.buff.length)

/-- In the inner `while` loop: every `lafe_line_reader_find_eol` stays inside
the allocation, as does the byte `line_start[0]` read. -/
def while_inside : Nat → struct_lafe_line_reader → Bool
  | 0, _ => false
  | fuel + 1, lr =>
    if lr.line_end < lr.buff_end then
      let line_start := lr.line_start
      let lr1 := { lr with line_end := lr.line_end + 1, line_start := lr.line_end + 1 }
      let lr2 := lafe_line_reader_find_eol lr1
      find_eol_inside lr1 && decide (line_start < lr.buff.length) &&
        (if lr2.nullSeparator ≠ 0 ∨ lr2.buff.getD line_start 0 ≠ 0 then true
         else while_inside fuel lr2)
    else
      true

/-- In the first half of a refill: the `memmove` of the `buff_end -
line_start` bytes at `line_start` to the front reads and writes inside the
allocation (`realloc` touches nothing). -/
def make_room_inside (lr : struct_lafe_line_reader) : Bool :=
  if lr.line_start > 0 then
    decide (lr.line_start ≤ lr.buff_end ∧ lr.buff_end ≤ lr.buff.length)
  else
    true

/-- The reader of `next_fill` after `fread` and `*lr->buff_end = 0`, before
the end of the line is looked for. -/
def fill_stored (lr : struct_lafe_line_reader) (f : FILE) : struct_lafe_line_reader :=
  let bytes_wanted := lr.buff_length - lr.buff_end
  let r := fread bytes_wanted f
  let lr1 := { lr with
    f := some r.2,
    buff := store lr.buff lr.buff_end r.1,
    buff_end := lr.buff_end + r.1.length }
  { lr1 with buff := lr1.buff.set lr1.buff_end 0 }

/-- In the second half of a refill: the `bytes_wanted` bytes `fread` may
write from `buff_end` on, the terminator behind the bytes read and
`lafe_line_reader_find_eol` stay inside the allocation. -/
def fill_inside (lr : struct_lafe_line_reader) (f : FILE) : Bool :=
  decide (lr.buff_end ≤ lr.buff_length ∧ lr.buff_length + 1 ≤ lr.buff.length) &&
    find_eol_inside (fill_stored lr f)

/-- In a refill: both halves stay inside the allocation. -/
def refill_inside (lr : struct_lafe_line_reader) (f : FILE) : Bool :=
  match next_make_room lr with
  | (false, _) => make_room_inside lr
  | (true, lr2) => make_room_inside lr && fill_inside lr2 f

/-- In the `for (;;)` loop of one call: every access stays inside the
allocation; `false` also when the fuel runs out. -/
def next_inside : Nat → struct_lafe_line_reader → Bool
  | 0, _ => false
  | fuel + 1, lr =>
    while_inside (lr.buff_end - lr.line_end + 1) lr &&
      (match next_while (lr.buff_end - lr.line_end + 1) lr with
       | none => false
       | some (some _, _) => true
       | some (none, lr1) =>
         match lr1.f with
         | none => true
         | some f =>
           refill_inside lr1 f &&
             (match next_refill lr1 f with
              | (false, _) => true
              | (true, lr3) => next_inside fuel lr3))

/-- In one call of `lafe_line_reader_next`: every write of a terminator,
every `memmove` and every `fread` stays inside the bytes allocated. -/
def call_inside (lr : struct_lafe_line_reader) : Bool :=
  next_inside (next_fuel lr) lr

/-! ## What the reader is expected to return -/

/-- The bytes that end a line for `lafe_line_reader_find_eol`: the zero byte
in both modes (`strcspn` stops at it), CR and LF when `nullSeparator` is 0. -/
def is_eol (ns : Int) (c : Nat) : Bool :=
  decide (c = 0 ∨ (ns = 0 ∧ (c = 13 ∨ c = 10)))

/-- The reject set `lafe_line_reader_find_eol` passes to `strcspn`. -/
def eol_reject (ns : Int) : List Nat := if ns ≠ 0 then [] else [0x0d, 0x0a]

/-- A terminated line as the `while` loop treats it: returned, unless it is
empty and the reader is in newline mode. -/
def emit_line (ns : Int) (l : List Nat) : List (List Nat) :=
  if ns ≠ 0 ∨ l ≠ [] then [l] else []

/-- The unterminated data left at end of file: returned unless empty. -/
def last_line (l : List Nat) : List (List Nat) :=
  if l = [] then [] else [l]

/-- The lines a left-to-right scan of the text finds, `acc` being the part of
the current line already seen. -/
def scan_lines (ns : Int) : List Nat → List Nat → List (List Nat)
  | acc, [] => last_line acc
  | acc, c :: cs =>
    if is_eol ns c then emit_line ns acc ++ scan_lines ns [] cs
    else scan_lines ns (acc ++ [c]) cs

/-- The expected result in newline mode: the content split at every CR and
every LF, the empty pieces left out. -/
def crlf_pieces (content : List Nat) : List (List Nat) :=
  (content.splitOnP (fun c => decide (c = 13 ∨ c = 10))).filter (fun piece => !piece.isEmpty)

/-- A list of pieces without its last piece when that one is empty. -/
def drop_empty_tail (pieces : List (List Nat)) : List (List Nat) :=
  if pieces.getLast? = some [] then pieces.dropLast else pieces

/-- The expected result in null mode: the content split at every zero byte,
empty pieces kept, except the empty tail behind a final zero byte (or the
one empty piece of an empty content). -/
def nul_pieces (content : List Nat) : List (List Nat) :=
  drop_empty_tail (content.splitOnP (fun c => decide (c = 0)))

/-- The expected result in newline mode on any content: the content split
at every CR, every LF and every zero byte, the empty pieces left out. -/
def crlf_nul_pieces (content : List Nat) : List (List Nat) :=
  (content.splitOnP (fun c => decide (c = 13 ∨ c = 10 ∨ c = 0))).filter
    (fun piece => !piece.isEmpty)

/-- The content with every LF replaced by the pair CR LF. -/
def lf_to_crlf : List Nat → List Nat
  | [] => []
  | c :: cs => if c = 10 then 13 :: 10 :: lf_to_crlf cs else c :: lf_to_crlf cs

/-- The text a reader has still to return lines of: the unreturned part of
its buffer, then what the stream has not delivered. -/
def pending (lr : struct_lafe_line_reader) : List Nat :=
  (lr.buff.take lr.buff_end).drop lr.line_start ++
    (match lr.f with
     | none => []
     | some f => f.data)

/-- The layout of the buffer between two steps of the reader: returned lines
`A`, the scanned part `l` of the current line, the unscanned rest `R` of the
data, which is empty or starts with the zero written over the line end, the
zero that ends the data, and unused bytes `G`. -/
structure Shape (lr : struct_lafe_line_reader) (A l R G : List Nat) : Prop where
  buff : lr.buff = A ++ l ++ R ++ 0 :: G
  start : lr.line_start = A.length
  stop : lr.line_end = A.length + l.length
  fin : lr.buff_end = A.length + l.length + R.length
  size : lr.buff.length = lr.buff_length + 1
  clean : ∀ c ∈ l, is_eol lr.nullSeparator c = false
  rest : R = [] ∨ ∃ R1, R = 0 :: R1

/-- The text of the line a returned pointer designates, read in the buffer
the call leaves; nothing for `NULL`. -/
def line_at (lr : struct_lafe_line_reader) (q : Option Nat) : List (List Nat) :=
  match q with
  | none => []
  | some q => [c_string (lr.buff.drop q)]

/-- A reader no call has touched yet: no buffer, an open stream. -/
structure Fresh (lr : struct_lafe_line_reader) : Prop where
  buff : lr.buff = []
  fin : lr.buff_end = 0
  start : lr.line_start = 0
  stop : lr.line_end = 0
  opened : lr.f ≠ none

/-- The buffer after room has been made and before `fread`: the fractional
line `l` at the front, free bytes `X` behind it. -/
structure Roomy (lr : struct_lafe_line_reader) (l X : List Nat) : Prop where
  buff : lr.buff = l ++ X
  start : lr.line_start = 0
  stop : lr.line_end = l.length
  fin : lr.buff_end = l.length
  size : lr.buff.length = lr.buff_length + 1
  room : l.length < lr.buff_length
  clean : ∀ c ∈ l, is_eol lr.nullSeparator c = false

/-- The reader after a `realloc` that failed: `buff_length` is already
doubled, the buffer is the old one, filled by the fractional line `l`. -/
structure Stalled (lr : struct_lafe_line_reader) (l G : List Nat) : Prop where
  buff : lr.buff = l ++ 0 :: G
  start : lr.line_start = 0
  stop : lr.line_end = l.length
  fin : lr.buff_end = l.length
  size : lr.buff.length ≤ lr.buff_length
  clean : ∀ c ∈ l, is_eol lr.nullSeparator c = false
  opened : lr.f ≠ none

/-- The states in which `lafe_line_reader_next` goes for a refill, `l` being
the fractional line held. -/
def Hungry (lr : struct_lafe_line_reader) (l : List Nat) : Prop :=
  (Fresh lr ∧ l = []) ∨ (∃ A G, Shape lr A l [] G) ∨ ∃ G, Stalled lr l G

/-- The setting in which no call can fail: the stream is sound and ends in an
end of file, it is read by whole buffers, and `size_t` and the memory are
large enough for twice `M` bytes, `M` bounding the text still to come and the
length a fresh reader starts with. -/
structure Calm (lr : struct_lafe_line_reader) (M : Nat) : Prop where
  stream : ∀ f, lr.f = some f → f.bad = false ∧ f.eof = false ∧ f.err = false
  full : lr.f ≠ none → lr.buff = [] ∨ lr.buff_end = lr.buff_length
  first : lr.buff = [] → lr.buff_length ≤ M
  pos : 0 < lr.buff_length
  text : (pending lr).length ≤ M
  mem : 2 * M + 1 ≤ lr.heap_avail
  word : 2 * M + 1 < 2 ^ lr.size_bits

/-- The states a reader is in between two calls that returned status 0. -/
def Inv (lr : struct_lafe_line_reader) : Prop :=
  Fresh lr ∨ ∃ A l R G, Shape lr A l R G

/-- The states a reader is in between two calls, whatever they returned. -/
def Sound (lr : struct_lafe_line_reader) : Prop :=
  0 < lr.buff_length ∧
    (Fresh lr ∨ (∃ A l R G, Shape lr A l R G) ∨ ∃ l G, Stalled lr l G)

/-- The three events behind a return of -1, read in the reader it leaves:
the doubling of `buff_length` does not fit `size_t`; `realloc` found no
memory for the doubled length plus one; the stream has its error indicator
set. -/
def Cause (lr : struct_lafe_line_reader) : Prop :=
  2 ^ lr.size_bits ≤ lr.buff_length * 2 ∨
  (lr.heap_avail < lr.buff_length + 1 ∧ lr.buff.length ≤ lr.buff_length) ∨
  ∃ f, lr.f = some f ∧ ferror f = true

/-! ## `b_header.h`: sizes, formats and the header block -/

/-- The macro `B_HEADER_SUFFIX_SIZE`. -/
def B_HEADER_SUFFIX_SIZE : Nat := 100
/-- The macro `B_HEADER_MODE_SIZE`. -/
def B_HEADER_MODE_SIZE : Nat := 8
/-- The macro `B_HEADER_UID_SIZE`. -/
def B_HEADER_UID_SIZE : Nat := 8
/-- The macro `B_HEADER_GID_SIZE`. -/
def B_HEADER_GID_SIZE : Nat := 8
/-- The macro `B_HEADER_SIZE_SIZE`. -/
def B_HEADER_SIZE_SIZE : Nat := 12
/-- The macro `B_HEADER_MTIME_SIZE`. -/
def B_HEADER_MTIME_SIZE : Nat := 12
/-- The macro `B_HEADER_CHECKSUM_SIZE`. -/
def B_HEADER_CHECKSUM_SIZE : Nat := 8
/-- The macro `B_HEADER_CHECKSUM_LEN`. -/
def B_HEADER_CHECKSUM_LEN : Nat := 7
/-- The macro `B_HEADER_LINKDEST_SIZE`. -/
def B_HEADER_LINKDEST_SIZE : Nat := 100
/-- The macro `B_HEADER_MAGIC_SIZE`. -/
def B_HEADER_MAGIC_SIZE : Nat := 8
/-- The macro `B_HEADER_USER_SIZE`. -/
def B_HEADER_USER_SIZE : Nat := 32
/-- The macro `B_HEADER_GROUP_SIZE`. -/
def B_HEADER_GROUP_SIZE : Nat := 32
/-- The macro `B_HEADER_MAJOR_SIZE`. -/
def B_HEADER_MAJOR_SIZE : Nat := 8
/-- The macro `B_HEADER_MINOR_SIZE`. -/
def B_HEADER_MINOR_SIZE : Nat := 8
/-- The macro `B_HEADER_PREFIX_SIZE`. -/
def B_HEADER_PREFIX_SIZE : Nat := 155
/-- The macro `B_HEADER_PADDING_SIZE`. -/
def B_HEADER_PADDING_SIZE : Nat := 12

/-- The bytes of the literal `B_HEADER_MAGIC`, `"ustar\x00\x30\x30"`, without
the zero byte the compiler appends. -/
def B_HEADER_MAGIC : List Nat := [117, 115, 116, 97, 114, 0x00, 0x30, 0x30]

/-- The macro `B_HEADER_MAX_USTAR_SIZE`. Its text in the header is the token
`LL8_589_934_591`; the value taken here is the number its digits spell. -/
def B_HEADER_MAX_USTAR_SIZE : Nat := 8589934591

/-- The bytes of the literal `B_HEADER_EMPTY_CHECKSUM`: eight spaces. -/
def B_HEADER_EMPTY_CHECKSUM : List Nat := [0x20, 0x20, 0x20, 0x20, 0x20, 0x20, 0x20, 0x20]

/-- The bytes of the literal `B_HEADER_LONGLINK_PATH`, `"././@LongLink"`. -/
def B_HEADER_LONGLINK_PATH : List Nat :=
  [46, 47, 46, 47, 64, 76, 111, 110, 103, 76, 105, 110, 107]

/-- The macro `B_HEADER_LONGLINK_TYPE`, the character `'L'`. -/
def B_HEADER_LONGLINK_TYPE : Nat := 76

/-- The macro `S_IPERM` as the header defines it when the platform does not. -/
def S_IPERM : Nat := 0o777

/-- A `printf` conversion specification of the shape `%.<precision>o` or
`%.<precision>lo`: octal, at least `precision` digits, of an `unsigned int`, or
of an `unsigned long` when the length modifier `l` is there. -/
structure octal_format where
  precision : Nat
  long : Bool
deriving DecidableEq, Repr

/-- The macro `B_HEADER_MODE_FORMAT`, `"%.7o"`. -/
def B_HEADER_MODE_FORMAT : octal_format := { precision := 7, long := false }
/-- The macro `B_HEADER_UID_FORMAT`, `"%.7o"`. -/
def B_HEADER_UID_FORMAT : octal_format := { precision := 7, long := false }
/-- The macro `B_HEADER_GID_FORMAT`, `"%.7o"`. -/
def B_HEADER_GID_FORMAT : octal_format := { precision := 7, long := false }
/-- The macro `B_HEADER_SIZE_FORMAT`, `"%.11o"`. -/
def B_HEADER_SIZE_FORMAT : octal_format := { precision := 11, long := false }
/-- The macro `B_HEADER_MTIME_FORMAT`, `"%.11o"`. -/
def B_HEADER_MTIME_FORMAT : octal_format := { precision := 11, long := false }
/-- The macro `B_HEADER_CHECKSUM_FORMAT`, `"%.6o"`. -/
def B_HEADER_CHECKSUM_FORMAT : octal_format := { precision := 6, long := false }
/-- The macro `B_HEADER_MAJOR_FORMAT`, `"%.7lo"`. -/
def B_HEADER_MAJOR_FORMAT : octal_format := { precision := 7, long := true }
/-- The macro `B_HEADER_MINOR_FORMAT`, `"%.7lo"`. -/
def B_HEADER_MINOR_FORMAT : octal_format := { precision := 7, long := true }

/-- The width in bits of the argument a conversion takes: 32 for
`unsigned int`, 64 for `unsigned long`. -/
def arg_bits (fmt : octal_format) : Nat := if fmt.long then 64 else 32

/-- The octal digits of `n`, lowest first; `fuel` bounds their number. -/
def octal_digits : Nat → Nat → List Nat
  | 0, _ => []
  | fuel + 1, n => if n = 0 then [] else (n % 8) :: octal_digits fuel (n / 8)

/-- The octal digits of `v` as characters, highest first; none for 0. -/
def octal_text (v : Nat) : List Nat := ((octal_digits v v).reverse).map (fun d => d + 48)

/-- The text `printf` writes for one octal conversion: the argument is taken
in the width of its C type, its octal digits are written highest first, with
zeros in front up to the precision. -/
def printf_octal (fmt : octal_format) (arg : Nat) : List Nat :=
  List.replicate (fmt.precision - (octal_text (arg % 2 ^ arg_bits fmt)).length) 48 ++
    octal_text (arg % 2 ^ arg_bits fmt)

/-- The number a text of octal digits denotes. -/
def octal_value (text : List Nat) : Nat :=
  text.foldl (fun acc c => 8 * acc + (c - 48)) 0

/-- The fields of `b_header_block` in declaration order, each with its array
length (`linktype` is a single `char`). All members are `char`s, so the
record has no padding and each offset is the sum of the lengths before. -/
def b_header_block_fields : List (String × Nat) :=
  [("suffix", B_HEADER_SUFFIX_SIZE), ("mode", B_HEADER_MODE_SIZE), ("uid", B_HEADER_UID_SIZE),
   ("gid", B_HEADER_GID_SIZE), ("size", B_HEADER_SIZE_SIZE), ("mtime", B_HEADER_MTIME_SIZE),
   ("checksum", B_HEADER_CHECKSUM_SIZE), ("linktype", 1), ("linkdest", B_HEADER_LINKDEST_SIZE),
   ("magic", B_HEADER_MAGIC_SIZE), ("user", B_HEADER_USER_SIZE), ("group", B_HEADER_GROUP_SIZE),
   ("major", B_HEADER_MAJOR_SIZE), ("minor", B_HEADER_MINOR_SIZE),
   ("prefix", B_HEADER_PREFIX_SIZE), ("padding", B_HEADER_PADDING_SIZE)]

/-- The size of the record: `sizeof(b_header_block)`. -/
def sizeof_b_header_block : Nat := (b_header_block_fields.map (fun fw => fw.2)).sum

/-- The offset of the first byte of a field and the offset behind its last
byte, searched in a list of fields that starts at offset `at_`. -/
def field_span_from (at_ : Nat) (name : String) : List (String × Nat) → Option (Nat × Nat)
  | [] => none
  | (n, w) :: rest => if n = name then some (at_, at_ + w) else field_span_from (at_ + w) name rest

/-- The span `offsetof(b_header_block, name)` .. `+ sizeof` of a field. -/
def field_span (name : String) : Option (Nat × Nat) :=
  field_span_from 0 name b_header_block_fields

/-- The bytes of the checksum field of a block. -/
def checksum_field (block : List Nat) : List Nat :=
  (block.drop 148).take B_HEADER_CHECKSUM_SIZE

/-- The sum of the bytes of a block, each taken as an unsigned value. -/
def byte_sum (block : List Nat) : Nat := (block.map (fun b => b % 256)).sum

/-! ## The header model and its encoders

`b_header.h` declares the record `b_header` and the functions below; their
bodies are in `b_header.c`, which is not among the sources at hand. -/

/-- The record `b_header`; a `b_string` is the list of its bytes. The C field
`prefix` is `prefix_` here. -/
structure b_header where
  suffix : List Nat
  mode : Nat
  uid : Nat
  gid : Nat
  size : Nat
  mtime : Int
  linktype : Nat
  linkdest : List Nat
  user : List Nat
  group : List Nat
  major : Nat
  minor : Nat
  prefix_ : List Nat
  truncated : Bool
deriving DecidableEq, Repr

/-- Modelled from the spec: the error kinds an encoding can end in
(section 7); the bodies of the functions that report them are missing. -/
inductive b_error where
  | UnsupportedEntryType
  | SizeOverflow
deriving DecidableEq, Repr

/-- Modelled from the spec: the kinds of filesystem entry `b_header_for_file`
tells apart (section 4.1), `other` being any kind without tar representation;
the body of the function is missing. -/
inductive entry_kind where
  | regular
  | directory
  | symlink
  | chardev
  | blockdev
  | fifo
  | other
deriving DecidableEq, Repr

/-- Modelled from the spec: the metadata `b_header_for_file` is given
(section 4.1): entry kind, mode bits, ownership ids, size, modification time,
link target, device numbers; the body of the function is missing. -/
structure b_stat where
  kind : entry_kind
  mode : Nat
  uid : Nat
  gid : Nat
  size : Nat
  mtime : Int
  linkdest : List Nat
  major : Nat
  minor : Nat
deriving DecidableEq, Repr

/-- Modelled from the spec: the type tag of an entry kind (section 4.1,
"resolves entry type tag"); the body of `b_header_for_file` is missing. The
tags are the USTAR ones, `'0'` regular, `'5'` directory, `'2'` symbolic link,
`'3'` and `'4'` character and block device, `'6'` fifo. -/
def type_tag : entry_kind → Except b_error Nat
  | .regular => .ok 48
  | .directory => .ok 53
  | .symlink => .ok 50
  | .chardev => .ok 51
  | .blockdev => .ok 52
  | .fifo => .ok 54
  | .other => .error .UnsupportedEntryType

/-- Modelled from the spec: the split of a member name that does not fit the
suffix (section 4.1): the rightmost `/` with at most 155 bytes before it and
at most 100 after it; the body of `b_header_for_file` is missing. -/
def split_point (name : List Nat) : Option Nat :=
  (List.range name.length).reverse.find? (fun i =>
    decide (name.getD i 0 = 47 ∧ i ≤ B_HEADER_PREFIX_SIZE ∧
      name.length - (i + 1) ≤ B_HEADER_SUFFIX_SIZE))

/-- Modelled from the spec: `b_header_for_file` (section 4.1), whose body is
missing. The result is the header model and the mark "requires a long-link
precursor"; in that case the name fields hold the reserved marker name
(section 8, second end-to-end scenario). -/
def b_header_for_file (_path member_name : List Nat) (st : b_stat) :
    Except b_error (b_header × Bool) :=
  match type_tag st.kind with
  | .error e => .error e
  | .ok tag =>
    let size := if st.kind = .regular then st.size else 0
    if B_HEADER_MAX_USTAR_SIZE < size then
      .error .SizeOverflow
    else
      let names : List Nat × List Nat × Bool :=
        if member_name.length ≤ B_HEADER_SUFFIX_SIZE then
          ([], member_name, false)
        else
          match split_point member_name with
          | some i => (member_name.take i, member_name.drop (i + 1), false)
          | none => ([], B_HEADER_LONGLINK_PATH, true)
      let link := if st.kind = .symlink then st.linkdest else []
      let device := decide (st.kind = .chardev ∨ st.kind = .blockdev)
      .ok ({ suffix := names.2.1,
             mode := Nat.land st.mode S_IPERM,
             uid := st.uid,
             gid := st.gid,
             size := size,
             mtime := st.mtime,
             linktype := tag,
             linkdest := link.take B_HEADER_LINKDEST_SIZE,
             user := [],
             group := [],
             major := if device then st.major else 0,
             minor := if device then st.minor else 0,
             prefix_ := names.1,
             truncated := decide (B_HEADER_LINKDEST_SIZE < link.length) },
           names.2.2)

/-- Modelled from the spec: a string copied into a field of fixed width,
cut at the width, zero bytes behind it (section 4.3, step 1); the body of
`b_header_encode_block` is missing. -/
def text_field (width : Nat) (s : List Nat) : List Nat :=
  (s.map (fun c => c % 256)).take width ++ List.replicate (width - s.length) 0

/-- Modelled from the spec: a number written in a field of `width` bytes as
`width - 1` zero-padded octal digits and a zero byte, or `SizeOverflow` when
it is out of the range of the field (section 4.3, steps 2 to 4, and
section 7); the body of `b_header_encode_block` is missing. -/
def octal_field (width : Nat) (v : Int) : Except b_error (List Nat) :=
  if 0 ≤ v ∧ v.toNat < 8 ^ (width - 1) ∧ v.toNat < 2 ^ 64 then
    .ok (printf_octal { precision := width - 1, long := true } v.toNat ++ [0])
  else
    .error .SizeOverflow

/-- Modelled from the spec: the checksum step (section 4.3, step 6): the
checksum field is filled with eight spaces, the 512 bytes are summed as
unsigned values, and the sum is written in the field as six octal digits, a
zero byte and a space; the body of `b_header_encode_block` is missing. -/
def checksum_step (block : List Nat) : List Nat :=
  let blanked := store block 148 B_HEADER_EMPTY_CHECKSUM
  store blanked 148 (printf_octal B_HEADER_CHECKSUM_FORMAT (byte_sum blanked) ++ [0, 0x20])

/-- Modelled from the spec: the device number fields (section 4.3, step 4):
octal for a character or block device (tags `'3'` and `'4'`), zero bytes for
any other entry; the body of `b_header_encode_block` is missing. -/
def device_field (linktype width : Nat) (v : Nat) : Except b_error (List Nat) :=
  if linktype = 51 ∨ linktype = 52 then octal_field width v
  else .ok (List.replicate width 0)

/-- Modelled from the spec: `b_header_encode_block` (section 4.3), whose body
is missing: the block, and the `truncated` flag of the header after the
call. -/
def b_header_encode_block (h : b_header) : Except b_error (List Nat × Bool) :=
  match octal_field B_HEADER_MODE_SIZE h.mode with
  | .error e => .error e
  | .ok mode =>
  match octal_field B_HEADER_UID_SIZE h.uid with
  | .error e => .error e
  | .ok uid =>
  match octal_field B_HEADER_GID_SIZE h.gid with
  | .error e => .error e
  | .ok gid =>
  match octal_field B_HEADER_SIZE_SIZE h.size with
  | .error e => .error e
  | .ok size =>
  match octal_field B_HEADER_MTIME_SIZE h.mtime with
  | .error e => .error e
  | .ok mtime =>
  match device_field h.linktype B_HEADER_MAJOR_SIZE h.major with
  | .error e => .error e
  | .ok major =>
  match device_field h.linktype B_HEADER_MINOR_SIZE h.minor with
  | .error e => .error e
  | .ok minor =>
    .ok (checksum_step
          (text_field B_HEADER_SUFFIX_SIZE h.suffix ++ mode ++ uid ++ gid ++ size ++ mtime ++
            List.replicate B_HEADER_CHECKSUM_SIZE 0 ++ [h.linktype % 256] ++
            text_field B_HEADER_LINKDEST_SIZE h.linkdest ++
            text_field B_HEADER_MAGIC_SIZE B_HEADER_MAGIC ++
            text_field B_HEADER_USER_SIZE h.user ++ text_field B_HEADER_GROUP_SIZE h.group ++
            major ++ minor ++ text_field B_HEADER_PREFIX_SIZE h.prefix_ ++
            List.replicate B_HEADER_PADDING_SIZE 0),
         h.truncated || decide (B_HEADER_SUFFIX_SIZE < h.suffix.length) ||
           decide (B_HEADER_PREFIX_SIZE < h.prefix_.length) ||
           decide (B_HEADER_LINKDEST_SIZE < h.linkdest.length) ||
           decide (B_HEADER_USER_SIZE < h.user.length) ||
           decide (B_HEADER_GROUP_SIZE < h.group.length))

/-- Modelled from the spec: `b_header_encode_longlink_block` (section 4.4),
whose body is missing: the block of the synthetic header model that carries
the marker name, the long-link type tag and the length of the path as size. -/
def b_header_encode_longlink_block (path : List Nat) : Except b_error (List Nat × Bool) :=
  b_header_encode_block
    { suffix := B_HEADER_LONGLINK_PATH, mode := 0, uid := 0, gid := 0, size := path.length,
      mtime := 0, linktype := B_HEADER_LONGLINK_TYPE, linkdest := [], user := [], group := [],
      major := 0, minor := 0, prefix_ := [], truncated := false }

/-- What an encoder produced: the block and the flag, or an empty block when
the encoder failed. -/
def produced (r : Except b_error (List Nat × Bool)) : List Nat × Bool :=
  match r with
  | .ok x => x
  | .error _ => ([], false)

/-- The header model of the first end-to-end scenario of the specification:
a regular file `a` of 10 bytes, mode 0644. -/
def scenario_header : b_header :=
  { suffix := [97], mode := 0o644, uid := 1000, gid := 1000, size := 10,
    mtime := 1350000000, linktype := 48, linkdest := [], user := [], group := [],
    major := 0, minor := 0, prefix_ := [], truncated := false }

/-- The checksum round trip of a block: with its checksum field blanked, the
unsigned byte sum is the number whose six-digit octal rendering, followed by
a zero byte and a space, is what the field holds. -/
def checksum_round_trip (block : List Nat) : Prop :=
  checksum_field block =
    printf_octal B_HEADER_CHECKSUM_FORMAT
      (byte_sum (store block 148 B_HEADER_EMPTY_CHECKSUM)) ++ [0, 0x20]

/-! ## Properties of the line reader -/

theorem is_eol_zero (ns : Int) : is_eol ns 0 = true := by simp [is_eol]

theorem not_eol_ne_zero {ns : Int} {c : Nat} (h : is_eol ns c = false) : c ≠ 0 := by
  intro hc; subst hc; simp [is_eol] at h

theorem strcspn_step (ns : Int) (c : Nat) :
    (c = 0 ∨ c ∈ eol_reject ns) ↔ is_eol ns c = true := by
  unfold eol_reject is_eol
  by_cases h : ns = 0 <;> simp [h]

/-- `strcspn` stops at the first line-ending byte. -/
theorem strcspn_first (ns : Int) (l : List Nat) (t : Nat) (r : List Nat)
    (hl : ∀ c ∈ l, is_eol ns c = false) (ht : is_eol ns t = true) :
    strcspn (l ++ t :: r) (eol_reject ns) = l.length := by
  induction l with
  | nil =>
    have := (strcspn_step ns t).mpr ht
    simp [strcspn, this]
  | cons a l ih =>
    have ha : ¬ (a = 0 ∨ a ∈ eol_reject ns) := by
      rw [strcspn_step]; simp [hl a (List.mem_cons_self a l)]
    have ih2 := ih (fun c hc => hl c (List.mem_cons_of_mem a hc))
    show strcspn (a :: (l ++ t :: r)) (eol_reject ns) = l.length + 1
    rw [strcspn, if_neg ha, ih2]

/-- A run of bytes either holds no line-ending byte or splits at its first one. -/
theorem first_eol (ns : Int) (s : List Nat) :
    (∀ c ∈ s, is_eol ns c = false) ∨
    ∃ l t r, s = l ++ t :: r ∧ (∀ c ∈ l, is_eol ns c = false) ∧ is_eol ns t = true := by
  induction s with
  | nil => left; simp
  | cons a s ih =>
    by_cases ha : is_eol ns a = true
    · right; exact ⟨[], a, s, rfl, by simp, ha⟩
    · have ha2 : is_eol ns a = false := by simpa using ha
      rcases ih with h | ⟨l, t, r, hs, hl, ht⟩
      · left
        intro c hc
        rcases List.mem_cons.mp hc with h1 | h1
        · rw [h1]; exact ha2
        · exact h c h1
      · right
        refine ⟨a :: l, t, r, by rw [hs]; rfl, ?_, ht⟩
        intro c hc
        rcases List.mem_cons.mp hc with h1 | h1
        · rw [h1]; exact ha2
        · exact hl c h1

theorem set_at_length (A : List Nat) (c : Nat) (B : List Nat) (v : Nat) :
    (A ++ c :: B).set A.length v = A ++ v :: B := by
  induction A with
  | nil => rfl
  | cons a A ih => simp [List.set, ih]

theorem getD_at_length (A : List Nat) (c : Nat) (B : List Nat) (d : Nat) :
    (A ++ c :: B).getD A.length d = c := by
  induction A with
  | nil => rfl
  | cons a A ih => simpa [List.getD] using ih

theorem drop_at_length (A B : List Nat) : (A ++ B).drop A.length = B := by
  induction A with
  | nil => rfl
  | cons a A ih => simp

theorem take_at_length (A B : List Nat) : (A ++ B).take A.length = A := by
  induction A with
  | nil => simp
  | cons a A ih => simp

/-- The C string at the start of a zero-free run followed by a zero byte. -/
theorem c_string_clean (ns : Int) (l r : List Nat) (hl : ∀ c ∈ l, is_eol ns c = false) :
    c_string (l ++ 0 :: r) = l := by
  induction l with
  | nil => simp [c_string]
  | cons a l ih =>
    have ha : a ≠ 0 := not_eol_ne_zero (hl a (List.mem_cons_self a l))
    have ih2 := ih (fun c hc => hl c (List.mem_cons_of_mem a hc))
    show c_string (a :: (l ++ 0 :: r)) = a :: l
    rw [c_string, if_neg ha, ih2]

/-- What `lafe_line_reader_find_eol` does when the line end is known. -/
theorem find_eol_at (lr : struct_lafe_line_reader) (P l : List Nat) (t : Nat) (Q : List Nat)
    (hb : lr.buff = P ++ l ++ t :: Q) (he : lr.line_end = P.length)
    (hl : ∀ c ∈ l, is_eol lr.nullSeparator c = false) (ht : is_eol lr.nullSeparator t = true) :
    lafe_line_reader_find_eol lr =
      { lr with line_end := P.length + l.length, buff := P ++ l ++ 0 :: Q } := by
  have h1 : lr.buff.drop P.length = l ++ t :: Q := by
    rw [hb, List.append_assoc, drop_at_length]
  have h2 : strcspn (l ++ t :: Q) (if lr.nullSeparator ≠ 0 then [] else [0x0d, 0x0a]) = l.length :=
    strcspn_first lr.nullSeparator l t Q hl ht
  have h3 : (P ++ l ++ t :: Q).set (P.length + l.length) 0 = P ++ l ++ 0 :: Q := by
    simp
  unfold lafe_line_reader_find_eol
  simp only [he, h1, h2]
  rw [hb, h3]

theorem scan_clean (ns : Int) (l : List Nat) : ∀ (acc T : List Nat),
    (∀ c ∈ l, is_eol ns c = false) →
    scan_lines ns acc (l ++ T) = scan_lines ns (acc ++ l) T := by
  induction l with
  | nil => intro acc T _; simp
  | cons a l ih =>
    intro acc T hl
    have ha : is_eol ns a = false := hl a (List.mem_cons_self a l)
    have ih2 := ih (acc ++ [a]) T (fun c hc => hl c (List.mem_cons_of_mem a hc))
    show scan_lines ns acc (a :: (l ++ T)) = _
    rw [scan_lines, ha]
    simp only [Bool.false_eq_true, if_false]
    rw [ih2, List.append_assoc]; rfl

theorem scan_first_acc (ns : Int) (acc l : List Nat) (t : Nat) (T : List Nat)
    (hl : ∀ c ∈ l, is_eol ns c = false) (ht : is_eol ns t = true) :
    scan_lines ns acc (l ++ t :: T) = emit_line ns (acc ++ l) ++ scan_lines ns [] T := by
  rw [scan_clean ns l acc (t :: T) hl, scan_lines, ht]
  simp

theorem scan_first (ns : Int) (l : List Nat) (t : Nat) (T : List Nat)
    (hl : ∀ c ∈ l, is_eol ns c = false) (ht : is_eol ns t = true) :
    scan_lines ns [] (l ++ t :: T) = emit_line ns l ++ scan_lines ns [] T := by
  simpa using scan_first_acc ns [] l t T hl ht

theorem scan_last (ns : Int) (l : List Nat) (hl : ∀ c ∈ l, is_eol ns c = false) :
    scan_lines ns [] l = last_line l := by
  have := scan_clean ns l [] [] hl
  simpa [scan_lines] using this

/-- The unscanned rest of the buffer, up to and with the zero that ends the
data, splits at its first line end. -/
theorem rest_split (ns : Int) (R1 G : List Nat) :
    ∃ l2 t Q R', R1 ++ 0 :: G = l2 ++ t :: Q ∧ (∀ c ∈ l2, is_eol ns c = false) ∧
      is_eol ns t = true ∧ (R' = [] ∨ ∃ R2, R' = 0 :: R2) ∧
      l2 ++ 0 :: Q = l2 ++ R' ++ 0 :: G ∧ l2.length + R'.length = R1.length ∧
      ∀ acc D, scan_lines ns acc (R1 ++ D) = scan_lines ns acc (l2 ++ R' ++ D) := by
  rcases first_eol ns R1 with h | ⟨l2, t, R2, hs, hl, ht⟩
  · exact ⟨R1, 0, G, [], rfl, h, is_eol_zero ns, Or.inl rfl, by simp, by simp, by simp⟩
  · refine ⟨l2, t, R2 ++ 0 :: G, 0 :: R2, by simp [hs], hl, ht, Or.inr ⟨R2, rfl⟩, by simp, ?_, ?_⟩
    · simp [hs]
    · intro acc D
      rw [hs]
      have e1 : l2 ++ t :: R2 ++ D = l2 ++ t :: (R2 ++ D) := by simp
      have e2 : l2 ++ 0 :: R2 ++ D = l2 ++ 0 :: (R2 ++ D) := by simp
      rw [e1, e2, scan_first_acc ns acc l2 t _ hl ht,
        scan_first_acc ns acc l2 0 _ hl (is_eol_zero ns)]

/-- The inner loop on a well-shaped buffer: it stops, keeps the shape and the
fields it does not own, and what it returns is the next expected line. -/
theorem next_while_spec : ∀ (fuel : Nat) (lr : struct_lafe_line_reader) (A l R G : List Nat),
    Shape lr A l R G → R.length < fuel →
    ∃ q b s e A' l' R' G',
      next_while fuel lr =
        some (q, { lr with buff := b, line_start := s, line_end := e }) ∧
      Shape { lr with buff := b, line_start := s, line_end := e } A' l' R' G' ∧
      (q = none → R' = []) ∧
      (q ≠ none → l'.length + R'.length < l.length + R.length) ∧
      l'.length + R'.length ≤ l.length + R.length ∧
      ∀ D, scan_lines lr.nullSeparator [] (l ++ R ++ D) =
        line_at { lr with buff := b, line_start := s, line_end := e } q ++
          scan_lines lr.nullSeparator [] (l' ++ R' ++ D) := by
  intro fuel
  induction fuel with
  | zero => intro lr A l R G _ h; omega
  | succ fuel ih =>
    intro lr A l R G sh hfuel
    rcases sh.rest with hR | ⟨R1, hR⟩
    · -- the loop condition is false
      subst hR
      have hlt : ¬ lr.line_end < lr.buff_end := by
        rw [sh.stop, sh.fin]; simp
      refine ⟨none, lr.buff, lr.line_start, lr.line_end, A, l, [], G, ?_, sh, ?_, ?_, ?_, ?_⟩
      · rw [next_while, if_neg hlt]
      · intro _; rfl
      · intro h; exact absurd rfl h
      · exact Nat.le_refl _
      · intro D; simp [line_at]
    · subst hR
      have hlt : lr.line_end < lr.buff_end := by
        rw [sh.stop, sh.fin]; simp
      obtain ⟨l2, t, Q, R', hsplit, hl2, ht, hR', hbuf, hlen, hscan⟩ :=
        rest_split lr.nullSeparator R1 G
      -- the reader after `++lr->line_end` and `find_eol`
      have hb1 : lr.buff = (A ++ l ++ [0]) ++ l2 ++ t :: Q := by
        rw [sh.buff]; simp [← hsplit]
      have hfe := find_eol_at
        { lr with line_end := lr.line_end + 1, line_start := lr.line_end + 1 }
        (A ++ l ++ [0]) l2 t Q hb1 (by simp [sh.stop]; omega) hl2 ht
      have hsh2 : Shape
          { lr with buff := (A ++ l ++ [0]) ++ l2 ++ 0 :: Q, line_start := lr.line_end + 1, line_end := (A ++ l ++ [0]).length + l2.length }
          (A ++ l ++ [0]) l2 R' G := by
        refine ⟨?_, ?_, ?_, ?_, ?_, hl2, hR'⟩
        · show (A ++ l ++ [0]) ++ l2 ++ 0 :: Q = (A ++ l ++ [0]) ++ l2 ++ R' ++ 0 :: G
          rw [List.append_assoc (A ++ l ++ [0]) l2, hbuf]; simp
        · show lr.line_end + 1 = _
          rw [sh.stop]; simp; omega
        · rfl
        · show lr.buff_end = _
          rw [sh.fin]; simp; omega
        · show ((A ++ l ++ [0]) ++ l2 ++ 0 :: Q).length = lr.buff_length + 1
          rw [← sh.size, hb1]; simp
      have hget : ((A ++ l ++ [0]) ++ l2 ++ 0 :: Q).getD lr.line_start 0 ≠ 0 ↔ l ≠ [] := by
        rw [sh.start]
        cases l with
        | nil =>
          have := getD_at_length A 0 (l2 ++ 0 :: Q) 0
          simp at this ⊢
          exact this
        | cons a l' =>
          have h1 := getD_at_length A a (l' ++ [0] ++ l2 ++ 0 :: Q) 0
          have h2 : a ≠ 0 := not_eol_ne_zero (sh.clean a (List.mem_cons_self a l'))
          simp at h1 ⊢
          rw [h1]; exact h2
      have hdrop : (((A ++ l ++ [0]) ++ l2 ++ 0 :: Q).drop lr.line_start) =
          l ++ 0 :: (l2 ++ 0 :: Q) := by
        rw [sh.start]
        simp
      have hscan1 : ∀ D, scan_lines lr.nullSeparator [] (l ++ 0 :: R1 ++ D) =
          emit_line lr.nullSeparator l ++ scan_lines lr.nullSeparator [] (l2 ++ R' ++ D) := by
        intro D
        have e1 : l ++ 0 :: R1 ++ D = l ++ 0 :: (R1 ++ D) := by simp
        rw [e1, scan_first lr.nullSeparator l 0 _ sh.clean (is_eol_zero _), hscan [] D]
      by_cases hc : lr.nullSeparator ≠ 0 ∨ l ≠ []
      · -- the line is returned
        refine ⟨some lr.line_start, (A ++ l ++ [0]) ++ l2 ++ 0 :: Q, lr.line_end + 1,
          (A ++ l ++ [0]).length + l2.length, A ++ l ++ [0], l2, R', G, ?_, hsh2, ?_, ?_, ?_, ?_⟩
        · rw [next_while, if_pos hlt]
          simp only [hfe]
          have : (lr.nullSeparator ≠ 0 ∨
              ((A ++ l ++ [0]) ++ l2 ++ 0 :: Q).getD lr.line_start 0 ≠ 0) := by
            rcases hc with h | h
            · exact Or.inl h
            · exact Or.inr (hget.mpr h)
          rw [if_pos this]
        · intro h; exact absurd h (by simp)
        · intro _; simp; omega
        · simp; omega
        · intro D
          rw [hscan1 D]
          simp only [line_at, hdrop]
          rw [c_string_clean lr.nullSeparator l _ sh.clean, emit_line, if_pos hc]
      · -- an empty line in newline mode is skipped
        have hns : lr.nullSeparator = 0 := by
          by_contra h; exact hc (Or.inl h)
        have hl : l = [] := by
          by_contra h; exact hc (Or.inr h)
        have hnot : ¬ (lr.nullSeparator ≠ 0 ∨
            ((A ++ l ++ [0]) ++ l2 ++ 0 :: Q).getD lr.line_start 0 ≠ 0) := by
          intro h
          rcases h with h | h
          · exact h hns
          · exact hc (Or.inr (hget.mp h))
        have hfuel2 : R'.length < fuel := by
          simp at hfuel; omega
        obtain ⟨q, b, s, e, A', l', R'', G', hrun, hsh3, hq1, hq2, hq3, hq4⟩ :=
          ih _ _ _ _ _ hsh2 hfuel2
        refine ⟨q, b, s, e, A', l', R'', G', ?_, hsh3, hq1, ?_, ?_, ?_⟩
        · rw [next_while, if_pos hlt]
          simp only [hfe]
          rw [if_neg hnot]
          exact hrun
        · intro h; have := hq2 h; simp; omega
        · simp; omega
        · intro D
          rw [hscan1 D, emit_line, if_neg hc]
          exact hq4 D

theorem pending_shape (lr : struct_lafe_line_reader) (A l R G : List Nat)
    (sh : Shape lr A l R G) :
    pending lr = l ++ R ++ (match lr.f with
      | none => []
      | some f => f.data) := by
  have h1 : lr.buff.take lr.buff_end = A ++ (l ++ R) := by
    rw [sh.buff, sh.fin]
    have := take_at_length (A ++ l ++ R) (0 :: G)
    simpa [Nat.add_assoc] using this
  unfold pending
  rw [h1, sh.start, drop_at_length]

theorem pending_fresh (lr : struct_lafe_line_reader) (h : Fresh lr) :
    pending lr = (match lr.f with
      | none => []
      | some f => f.data) := by
  unfold pending
  rw [h.buff]; simp

/-- Doubling a length modulo a power of two leaves room for one more. -/
theorem double_mod_succ (x bits : Nat) (h : x < (x * 2) % 2 ^ bits) :
    ((x * 2) % 2 ^ bits + 1) % 2 ^ bits = (x * 2) % 2 ^ bits + 1 := by
  cases bits with
  | zero => simp [Nat.mod_one] at h
  | succ b =>
    apply Nat.mod_eq_of_lt
    have h2 : (x * 2) % 2 ^ (b + 1) = 2 * (x % 2 ^ b) := by
      rw [Nat.pow_succ, Nat.mul_comm x 2, Nat.mul_comm (2 ^ b) 2, Nat.mul_mod_mul_left]
    have h3 : x % 2 ^ b < 2 ^ b := Nat.mod_lt _ (Nat.pos_pow_of_pos b (by decide))
    rw [h2, Nat.pow_succ]
    omega

/-- Making room by moving the fractional line to the front. -/
theorem make_room_move (lr : struct_lafe_line_reader) (A l G : List Nat)
    (sh : Shape lr A l [] G) (hpos : 0 < lr.line_start) :
    ∃ X, next_make_room lr = (true, { lr with buff := l ++ X, buff_end := l.length, line_end := l.length, line_start := 0 }) ∧
      Roomy { lr with buff := l ++ X, buff_end := l.length, line_end := l.length, line_start := 0 } l X := by
  have hA : 0 < A.length := by rw [← sh.start]; exact hpos
  have hsz : A.length + l.length + 1 + G.length = lr.buff_length + 1 := by
    rw [← sh.size, sh.buff]; simp; omega
  have hmv : memmove lr.buff lr.line_start (lr.buff_end - lr.line_start) =
      l ++ lr.buff.drop l.length := by
    have h1 : lr.buff_end - lr.line_start = l.length := by
      rw [sh.fin, sh.start]; simp
    have h2 : lr.buff.drop lr.line_start = l ++ 0 :: G := by
      rw [sh.buff, sh.start]
      simp
    unfold memmove
    rw [h1, h2, take_at_length]
  refine ⟨lr.buff.drop l.length, ?_, ?_⟩
  · unfold next_make_room
    rw [if_pos hpos, hmv]
    have h1 : lr.buff_end - lr.line_start = l.length := by
      rw [sh.fin, sh.start]; simp
    have h2 : lr.line_end - lr.line_start = l.length := by
      rw [sh.stop, sh.start]; simp
    rw [h1, h2]
  · refine ⟨rfl, rfl, rfl, rfl, ?_, ?_, sh.clean⟩
    · show (l ++ lr.buff.drop l.length).length = lr.buff_length + 1
      rw [List.length_append, List.length_drop, sh.size]; omega
    · show l.length < lr.buff_length
      omega

/-- Making room by doubling the buffer, when the doubling does not wrap
around and `realloc` finds the memory. -/
theorem make_room_grow (lr : struct_lafe_line_reader) (l : List Nat) (h : Hungry lr l)
    (hzero : lr.line_start = 0)
    (hwrap : lr.buff_length < (lr.buff_length * 2) % 2 ^ lr.size_bits)
    (hmem : (lr.buff_length * 2) % 2 ^ lr.size_bits + 1 ≤ lr.heap_avail) :
    ∃ X, next_make_room lr = (true, { lr with buff := l ++ X, buff_length := (lr.buff_length * 2) % 2 ^ lr.size_bits, line_start := 0 }) ∧
      Roomy { lr with buff := l ++ X, buff_length := (lr.buff_length * 2) % 2 ^ lr.size_bits, line_start := 0 } l X := by
  have hnpos : ¬ lr.line_start > 0 := by omega
  have hnle : ¬ (lr.buff_length * 2) % 2 ^ lr.size_bits ≤ lr.buff_length := by omega
  have hsucc := double_mod_succ lr.buff_length lr.size_bits hwrap
  -- the buffer is the fractional line and a tail no longer than the old allocation
  have hbuf : ∃ T, lr.buff = l ++ T ∧ lr.buff.length ≤ lr.buff_length + 1 ∧
      lr.line_end = l.length ∧ lr.buff_end = l.length ∧ l.length ≤ lr.buff_length ∧
      ∀ c ∈ l, is_eol lr.nullSeparator c = false := by
    rcases h with ⟨hf, hl⟩ | ⟨A, G, sh⟩ | ⟨G, st⟩
    · subst hl
      exact ⟨[], by simp [hf.buff], by simp [hf.buff], hf.stop, hf.fin, by simp, by simp⟩
    · have hA : A = [] := by
        have := sh.start; rw [hzero] at this
        exact List.length_eq_zero.mp this.symm
      subst hA
      have hsz : l.length + 1 + G.length = lr.buff_length + 1 := by
        rw [← sh.size, sh.buff]; simp; omega
      refine ⟨0 :: G, by simpa using sh.buff, by rw [sh.size], by simpa using sh.stop,
        by simpa using sh.fin, by omega, sh.clean⟩
    · have hsz := st.size
      rw [st.buff] at hsz
      simp at hsz
      exact ⟨0 :: G, st.buff, by have := st.size; omega, st.stop, st.fin, by omega, st.clean⟩
  obtain ⟨T, hb, hlen, hstop, hfin, hle, hclean⟩ := hbuf
  let n := (lr.buff_length * 2) % 2 ^ lr.size_bits
  have hre : realloc lr.buff (n + 1) lr.heap_avail lr.junk =
      some (l ++ (T ++ List.replicate (n + 1 - lr.buff.length) lr.junk)) := by
    unfold realloc
    rw [if_pos hmem]
    have : (lr.buff ++ List.replicate (n + 1 - lr.buff.length) lr.junk).length = n + 1 := by
      rw [List.length_append, List.length_replicate]
      have : lr.buff.length ≤ n + 1 := by omega
      omega
    rw [List.take_of_length_le (Nat.le_of_eq this)]
    rw [hb, List.append_assoc]
  refine ⟨T ++ List.replicate (n + 1 - lr.buff.length) lr.junk, ?_, ?_⟩
  · unfold next_make_room
    rw [if_neg hnpos]
    simp only [if_neg hnle, hsucc, hre]
  · refine ⟨rfl, rfl, hstop, hfin, ?_, ?_, hclean⟩
    · show (l ++ (T ++ List.replicate (n + 1 - lr.buff.length) lr.junk)).length = n + 1
      rw [← List.append_assoc, ← hb, List.length_append, List.length_replicate]
      have : lr.buff.length ≤ n + 1 := by omega
      omega
    · show l.length < n
      omega

theorem fread_data (n : Nat) (f : FILE) : (fread n f).1 ++ (fread n f).2.data = f.data := by
  unfold fread
  split <;> simp

theorem fread_length (n : Nat) (f : FILE) : (fread n f).1.length ≤ n := by
  unfold fread
  split
  · simp
  · simp; omega

theorem fread_full (n : Nat) (f : FILE) (h : n ≤ f.data.length) :
    (fread n f).1.length = n ∧ (fread n f).2.eof = f.eof ∧ (fread n f).2.err = f.err ∧
      (fread n f).2.bad = f.bad ∧ (fread n f).2.data.length = f.data.length - n := by
  unfold fread
  rw [if_pos h]
  simp; omega

theorem fread_short (n : Nat) (f : FILE) (h : ¬ n ≤ f.data.length) :
    (fread n f).1 = f.data ∧ (fread n f).2.eof = (f.eof || !f.bad) ∧
      (fread n f).2.err = (f.err || f.bad) ∧ (fread n f).2.bad = f.bad ∧
      (fread n f).2.data = [] := by
  unfold fread
  rw [if_neg h]
  simp

/-- The second half of a refill puts the buffer back in shape, the bytes read
behind the fractional line. -/
theorem next_fill_spec (lr : struct_lafe_line_reader) (l X : List Nat) (f : FILE)
    (hr : Roomy lr l X) :
    ∃ b l2 R' G',
      next_fill lr f = { lr with f := some (fread (lr.buff_length - lr.buff_end) f).2, buff := b, buff_end := l.length + (fread (lr.buff_length - lr.buff_end) f).1.length, line_end := l.length + l2.length } ∧
      Shape { lr with f := some (fread (lr.buff_length - lr.buff_end) f).2, buff := b, buff_end := l.length + (fread (lr.buff_length - lr.buff_end) f).1.length, line_end := l.length + l2.length } [] (l ++ l2) R' G' ∧
      l2.length + R'.length = (fread (lr.buff_length - lr.buff_end) f).1.length ∧
      ∀ D, scan_lines lr.nullSeparator [] (l ++ (fread (lr.buff_length - lr.buff_end) f).1 ++ D) =
        scan_lines lr.nullSeparator [] ((l ++ l2) ++ R' ++ D) := by
  generalize hbytes : (fread (lr.buff_length - lr.buff_end) f).1 = bytes
  generalize hf2 : (fread (lr.buff_length - lr.buff_end) f).2 = f2
  have hk : bytes.length ≤ lr.buff_length - l.length := by
    rw [← hbytes, ← hr.fin]; exact fread_length _ _
  have hX : l.length + X.length = lr.buff_length + 1 := by
    rw [← hr.size, hr.buff]; simp
  -- the byte that takes the terminator
  have hdrop : ∃ x G', X.drop bytes.length = x :: G' := by
    have : 0 < (X.drop bytes.length).length := by
      rw [List.length_drop]; have := hr.room; omega
    cases hd : X.drop bytes.length with
    | nil => rw [hd] at this; simp at this
    | cons x G' => exact ⟨x, G', rfl⟩
  obtain ⟨x, G', hG⟩ := hdrop
  have hstore : store lr.buff lr.buff_end bytes = (l ++ bytes) ++ x :: G' := by
    unfold store
    rw [hr.fin, hr.buff, take_at_length]
    have : (l ++ X).drop (l.length + bytes.length) = X.drop bytes.length := by
      rw [← List.drop_drop, drop_at_length]
    rw [this, hG]
  have hset : ((l ++ bytes) ++ x :: G').set (lr.buff_end + bytes.length) 0 =
      l ++ (bytes ++ 0 :: G') := by
    rw [hr.fin]
    simp
  obtain ⟨l2, t, Q, R', hsplit, hl2, ht, hR', hbuf, hlen, hscan⟩ :=
    rest_split lr.nullSeparator bytes G'
  have hfe := find_eol_at
    { lr with f := some f2, buff := l ++ (bytes ++ 0 :: G'), buff_end := lr.buff_end + bytes.length }
    l l2 t Q (by show l ++ (bytes ++ 0 :: G') = l ++ l2 ++ t :: Q; rw [hsplit]; simp)
    hr.stop hl2 ht
  refine ⟨l ++ l2 ++ 0 :: Q, l2, R', G', ?_, ?_, hlen, ?_⟩
  · unfold next_fill
    simp only [hbytes, hf2, hstore, hset, hfe]
    rw [hr.fin]
  · refine ⟨?_, hr.start, ?_, ?_, ?_, ?_, hR'⟩
    · show l ++ l2 ++ 0 :: Q = [] ++ (l ++ l2) ++ R' ++ 0 :: G'
      rw [List.append_assoc l l2, hbuf]; simp
    · show l.length + l2.length = ([] : List Nat).length + (l ++ l2).length
      simp
    · show l.length + bytes.length = ([] : List Nat).length + (l ++ l2).length + R'.length
      simp; omega
    · show (l ++ l2 ++ 0 :: Q).length = lr.buff_length + 1
      have e : l ++ l2 ++ 0 :: Q = l ++ (l2 ++ R' ++ 0 :: G') := by
        rw [List.append_assoc l l2, hbuf]
      have e2 : (X.drop bytes.length).length = G'.length + 1 := by rw [hG]; simp
      rw [List.length_drop] at e2
      rw [e]; simp; omega
    · intro c hc
      rcases List.mem_append.mp hc with h | h
      · exact hr.clean c h
      · exact hl2 c h
  · intro D
    rw [List.append_assoc l bytes, scan_clean _ l [] _ hr.clean,
      List.append_assoc (l ++ l2), List.append_assoc l l2, scan_clean _ l [] _ hr.clean]
    have := hscan ([] ++ l) D
    simpa using this

theorem pending_hungry (lr : struct_lafe_line_reader) (l : List Nat) (h : Hungry lr l) :
    pending lr = l ++ (match lr.f with
      | none => []
      | some f => f.data) := by
  rcases h with ⟨hf, hl⟩ | ⟨A, G, sh⟩ | ⟨G, st⟩
  · rw [pending_fresh lr hf, hl]; simp
  · rw [pending_shape lr A l [] G sh]; simp
  · unfold pending
    rw [st.buff, st.fin, st.start, take_at_length]; simp

theorem shape_buff_ne_nil (lr : struct_lafe_line_reader) (A l R G : List Nat)
    (sh : Shape lr A l R G) : lr.buff ≠ [] := by
  rw [sh.buff]; simp

/-- In the calm setting room is always made. -/
theorem make_room_calm (lr : struct_lafe_line_reader) (l : List Nat) (M : Nat)
    (h : Hungry lr l) (hc : Calm lr M) (hopen : lr.f ≠ none) :
    ∃ lr2 X, next_make_room lr = (true, lr2) ∧ Roomy lr2 l X ∧ lr2.f = lr.f ∧
      lr2.nullSeparator = lr.nullSeparator ∧ lr2.size_bits = lr.size_bits ∧
      lr2.heap_avail = lr.heap_avail ∧ lr.buff_length ≤ lr2.buff_length := by
  by_cases hpos : 0 < lr.line_start
  · rcases h with ⟨hf, _⟩ | ⟨A, G, sh⟩ | ⟨G, st⟩
    · have := hf.start; omega
    · obtain ⟨X, h1, h2⟩ := make_room_move lr A l G sh hpos
      exact ⟨_, X, h1, h2, rfl, rfl, rfl, rfl, Nat.le_refl _⟩
    · have := st.start; omega
  · have hzero : lr.line_start = 0 := by omega
    have hplen : l.length ≤ M := by
      have := hc.text
      rw [pending_hungry lr l h, List.length_append] at this
      omega
    have hbl : lr.buff_length ≤ M := by
      rcases h with ⟨hf, _⟩ | ⟨A, G, sh⟩ | ⟨G, st⟩
      · exact hc.first hf.buff
      · rcases hc.full hopen with h1 | h1
        · exact absurd h1 (shape_buff_ne_nil lr A l [] G sh)
        · have hA : A.length = 0 := by rw [← sh.start]; exact hzero
          have := sh.fin
          simp [hA] at this
          omega
      · rcases hc.full hopen with h1 | h1
        · rw [st.buff] at h1; simp at h1
        · have := st.fin; omega
    have hmod : (lr.buff_length * 2) % 2 ^ lr.size_bits = lr.buff_length * 2 := by
      apply Nat.mod_eq_of_lt
      have := hc.word; omega
    have hwrap : lr.buff_length < (lr.buff_length * 2) % 2 ^ lr.size_bits := by
      rw [hmod]; have := hc.pos; omega
    have hmem : (lr.buff_length * 2) % 2 ^ lr.size_bits + 1 ≤ lr.heap_avail := by
      rw [hmod]; have := hc.mem; omega
    obtain ⟨X, h1, h2⟩ := make_room_grow lr l h hzero hwrap hmem
    refine ⟨_, X, h1, h2, rfl, rfl, rfl, rfl, ?_⟩
    show lr.buff_length ≤ (lr.buff_length * 2) % 2 ^ lr.size_bits
    omega

/-- The second half of a refill, without the record it builds. -/
theorem next_fill_fields (lr : struct_lafe_line_reader) (l X : List Nat) (f : FILE)
    (hr : Roomy lr l X) :
    ∃ l2 R' G', Shape (next_fill lr f) [] (l ++ l2) R' G' ∧
      (next_fill lr f).f = some (fread (lr.buff_length - lr.buff_end) f).2 ∧
      (next_fill lr f).nullSeparator = lr.nullSeparator ∧
      (next_fill lr f).size_bits = lr.size_bits ∧
      (next_fill lr f).heap_avail = lr.heap_avail ∧
      (next_fill lr f).buff_length = lr.buff_length ∧
      (next_fill lr f).buff_end = l.length + (fread (lr.buff_length - lr.buff_end) f).1.length ∧
      l2.length + R'.length = (fread (lr.buff_length - lr.buff_end) f).1.length ∧
      ∀ D, scan_lines lr.nullSeparator [] (l ++ (fread (lr.buff_length - lr.buff_end) f).1 ++ D) =
        scan_lines lr.nullSeparator [] ((l ++ l2) ++ R' ++ D) := by
  obtain ⟨b, l2, R', G', h1, h2, h3, h4⟩ := next_fill_spec lr l X f hr
  refine ⟨l2, R', G', ?_, ?_, ?_, ?_, ?_, ?_, ?_, h3, h4⟩
  · rw [h1]; exact h2
  all_goals rw [h1]

theorem shape_close (lr : struct_lafe_line_reader) (A l R G : List Nat)
    (sh : Shape lr A l R G) : Shape { lr with f := none } A l R G :=
  ⟨sh.buff, sh.start, sh.stop, sh.fin, sh.size, sh.clean, sh.rest⟩

/-- A refill in the calm setting: the loop goes round again on a buffer in
shape, with the same text pending and a shorter stream. -/
theorem refill_calm (lr : struct_lafe_line_reader) (l : List Nat) (M : Nat) (f : FILE)
    (h : Hungry lr l) (hc : Calm lr M) (hf : lr.f = some f) :
    ∃ lr3 l' R' G', next_refill lr f = (true, lr3) ∧ Shape lr3 [] l' R' G' ∧ Calm lr3 M ∧
      lr3.nullSeparator = lr.nullSeparator ∧
      scan_lines lr.nullSeparator [] (pending lr) =
        scan_lines lr.nullSeparator [] (pending lr3) ∧
      (pending lr3).length = (pending lr).length ∧ next_fuel lr3 < next_fuel lr := by
  have hopen : lr.f ≠ none := by rw [hf]; simp
  obtain ⟨lr2, X, hmr, hroomy, h2f, h2ns, h2bits, h2heap, h2len⟩ :=
    make_room_calm lr l M h hc hopen
  obtain ⟨l2, R', G', hsh, h3f, h3ns, h3bits, h3heap, h3len, h3end, hlen, hscan⟩ :=
    next_fill_fields lr2 l X f hroomy
  obtain ⟨hbad, heof, herr⟩ := hc.stream f hf
  have hpend : pending lr = l ++ f.data := by
    rw [pending_hungry lr l h, hf]
  have hdata := fread_data (lr2.buff_length - lr2.buff_end) f
  have hwant : 0 < lr2.buff_length - lr2.buff_end := by
    rw [hroomy.fin]; have := hroomy.room; omega
  have hfuel : next_fuel lr = f.data.length + 2 := by
    unfold next_fuel; rw [hf]
  have hplen : l.length + f.data.length ≤ M := by
    have := hc.text; rw [hpend, List.length_append] at this; exact this
  have hpos3 : 0 < (next_fill lr2 f).buff_length := by
    rw [h3len]; have := hc.pos; omega
  by_cases hfull : lr2.buff_length - lr2.buff_end ≤ f.data.length
  · -- a whole request: the stream stays open
    obtain ⟨r1, r2, r3, r4, r5⟩ := fread_full _ f hfull
    have hp3 : pending (next_fill lr2 f) =
        (l ++ l2) ++ R' ++ (fread (lr2.buff_length - lr2.buff_end) f).2.data := by
      rw [pending_shape _ _ _ _ _ hsh, h3f]
    refine ⟨next_fill lr2 f, l ++ l2, R', G', ?_, hsh, ?_, ?_, ?_, ?_, ?_⟩
    · unfold next_refill
      rw [hmr]
      simp only [ferror, feof, r2, r3, heof, herr]
      simp
    · refine ⟨?_, ?_, ?_, hpos3, ?_, ?_, ?_⟩
      · intro g hg
        rw [h3f] at hg
        have hg2 : (fread (lr2.buff_length - lr2.buff_end) f).2 = g := by
          simpa using hg
        rw [← hg2, r2, r3, r4]
        exact ⟨hbad, heof, herr⟩
      · intro _
        right
        rw [h3end, h3len, r1, hroomy.fin]
        have := hroomy.room; omega
      · intro hnil
        exact absurd hnil (shape_buff_ne_nil _ _ _ _ _ hsh)
      · rw [hp3]
        have := congrArg List.length hdata
        simp only [List.length_append] at this ⊢
        omega
      · rw [h3heap, h2heap]; exact hc.mem
      · rw [h3bits, h2bits]; exact hc.word
    · rw [h3ns, h2ns]
    · rw [hp3, hpend, ← hdata, ← List.append_assoc, ← h2ns]
      exact hscan _
    · rw [hp3, hpend]
      have := congrArg List.length hdata
      simp only [List.length_append] at this ⊢
      omega
    · rw [hfuel]
      unfold next_fuel
      rw [h3f]
      show (fread (lr2.buff_length - lr2.buff_end) f).2.data.length + 2 < _
      rw [r5]; omega
  · -- a short count: end of file, the stream is closed
    obtain ⟨r1, r2, r3, r4, r5⟩ := fread_short _ f hfull
    have hsh' := shape_close _ _ _ _ _ hsh
    have hp3 : pending { next_fill lr2 f with f := none } = (l ++ l2) ++ R' := by
      rw [pending_shape _ _ _ _ _ hsh']; simp
    refine ⟨{ next_fill lr2 f with f := none }, l ++ l2, R', G', ?_, hsh', ?_, ?_, ?_, ?_, ?_⟩
    · unfold next_refill
      rw [hmr]
      simp only [ferror, feof, r2, r3, heof, herr, hbad]
      simp
    · refine ⟨?_, ?_, ?_, hpos3, ?_, ?_, ?_⟩
      · intro g hg; exact absurd hg (by simp)
      · intro hne; exact absurd rfl hne
      · intro hnil
        exact absurd hnil (shape_buff_ne_nil _ _ _ _ _ hsh')
      · rw [hp3]
        have : l2.length + R'.length = f.data.length := by rw [hlen, r1]
        simp only [List.length_append]
        omega
      · show 2 * M + 1 ≤ (next_fill lr2 f).heap_avail
        rw [h3heap, h2heap]; exact hc.mem
      · show 2 * M + 1 < 2 ^ (next_fill lr2 f).size_bits
        rw [h3bits, h2bits]; exact hc.word
    · show (next_fill lr2 f).nullSeparator = _
      rw [h3ns, h2ns]
    · rw [hp3, hpend]
      have := hscan []
      rw [r1, h2ns] at this
      simpa using this
    · rw [hp3, hpend]
      have : l2.length + R'.length = f.data.length := by rw [hlen, r1]
      simp only [List.length_append]
      omega
    · rw [hfuel]
      unfold next_fuel
      simp

theorem next_fuel_pos (lr : struct_lafe_line_reader) : 0 < next_fuel lr := by
  unfold next_fuel
  cases lr.f <;> simp

/-- The inner loop in the calm setting, from any state between two calls. -/
theorem while_calm (lr : struct_lafe_line_reader) (M : Nat) (hinv : Inv lr) (hc : Calm lr M) :
    ∃ q1 lr1, next_while (lr.buff_end - lr.line_end + 1) lr = some (q1, lr1) ∧
      lr1.f = lr.f ∧ lr1.nullSeparator = lr.nullSeparator ∧ Calm lr1 M ∧ Inv lr1 ∧
      scan_lines lr.nullSeparator [] (pending lr) =
        line_at lr1 q1 ++ scan_lines lr.nullSeparator [] (pending lr1) ∧
      (q1 ≠ none → (pending lr1).length < (pending lr).length) ∧
      (pending lr1).length ≤ (pending lr).length ∧
      (q1 = none → ∃ l, Hungry lr1 l) := by
  rcases hinv with hf | ⟨A, l, R, G, sh⟩
  · have hlt : ¬ lr.line_end < lr.buff_end := by rw [hf.stop, hf.fin]; simp
    refine ⟨none, lr, ?_, rfl, rfl, hc, Or.inl hf, by simp [line_at], ?_, Nat.le_refl _, ?_⟩
    · rw [next_while, if_neg hlt]
    · intro h; exact absurd rfl h
    · intro _; exact ⟨[], Or.inl ⟨hf, rfl⟩⟩
  · have hfuel : R.length < lr.buff_end - lr.line_end + 1 := by
      rw [sh.fin, sh.stop]; omega
    obtain ⟨q, b, s, e, A', l', R', G', hrun, hsh, hq1, hq2, hq3, hq4⟩ :=
      next_while_spec _ lr A l R G sh hfuel
    have hp := pending_shape lr A l R G sh
    have hp1 := pending_shape _ A' l' R' G' hsh
    simp only [] at hp1
    refine ⟨q, _, hrun, rfl, rfl, ?_, Or.inr ⟨A', l', R', G', hsh⟩, ?_, ?_, ?_, ?_⟩
    · refine ⟨hc.stream, ?_, ?_, hc.pos, ?_, hc.mem, hc.word⟩
      · intro hne
        rcases hc.full hne with h1 | h1
        · exact absurd h1 (shape_buff_ne_nil lr A l R G sh)
        · exact Or.inr h1
      · intro hnil
        exact absurd hnil (shape_buff_ne_nil _ _ _ _ _ hsh)
      · have := hc.text
        rw [hp] at this
        rw [hp1]
        simp only [List.length_append] at this ⊢
        omega
    · rw [hp, hp1]
      exact hq4 _
    · intro hne
      have := hq2 hne
      rw [hp, hp1]
      simp only [List.length_append]
      omega
    · rw [hp, hp1]
      simp only [List.length_append]
      omega
    · intro hnone
      have := hq1 hnone
      subst this
      exact ⟨l', Or.inr (Or.inl ⟨A', G', hsh⟩)⟩

/-- One call in the calm setting returns status 0 and the next expected
line, or `NULL` when no text is pending. -/
theorem next_loop_calm (M : Nat) : ∀ (fuel : Nat) (lr : struct_lafe_line_reader),
    Inv lr → Calm lr M → next_fuel lr ≤ fuel →
    ∃ q lr', next_loop fuel lr = some (0, q, lr') ∧ Inv lr' ∧ Calm lr' M ∧
      lr'.nullSeparator = lr.nullSeparator ∧
      scan_lines lr.nullSeparator [] (pending lr) =
        line_at lr' q ++ scan_lines lr.nullSeparator [] (pending lr') ∧
      (q ≠ none → (pending lr').length < (pending lr).length) ∧
      (q = none → pending lr' = [] ∧ lr'.f = none) := by
  intro fuel
  induction fuel with
  | zero =>
    intro lr _ _ h
    have := next_fuel_pos lr
    omega
  | succ fuel ih =>
    intro lr hinv hc hfuel
    obtain ⟨q1, lr1, hrun, h1f, h1ns, h1c, h1inv, h1scan, h1lt, h1le, h1h⟩ :=
      while_calm lr M hinv hc
    cases q1 with
    | some q =>
      refine ⟨some q, lr1, ?_, h1inv, h1c, h1ns, h1scan, h1lt, ?_⟩
      · rw [next_loop, hrun]
      · intro h; exact absurd h (by simp)
    | none =>
      obtain ⟨l, hh⟩ := h1h rfl
      have hfuel1 : next_fuel lr1 = next_fuel lr := by
        unfold next_fuel; rw [h1f]
      cases hf : lr1.f with
      | none =>
        -- end of file
        rcases hh with ⟨hfr, _⟩ | ⟨A, G, sh⟩ | ⟨G, st⟩
        · exact absurd hf hfr.opened
        rotate_left
        · exact absurd hf st.opened
        · have hp := pending_shape lr1 A l [] G sh
          rw [hf] at hp
          simp only [List.append_nil] at hp
          by_cases hl : l = []
          · subst hl
            have heq : lr1.line_start = lr1.buff_end := by rw [sh.start, sh.fin]; simp
            refine ⟨none, lr1, ?_, h1inv, h1c, h1ns, h1scan, h1lt, ?_⟩
            · rw [next_loop, hrun]
              simp only [hf, if_pos heq]
            · intro _; exact ⟨hp, hf⟩
          · have hlpos : 0 < l.length := List.length_pos.mpr hl
            have hne : ¬ lr1.line_start = lr1.buff_end := by
              intro h
              rw [sh.start, sh.fin] at h
              simp only [List.length_nil] at h
              omega
            have hsh2 : Shape { lr1 with line_start := lr1.buff_end } (A ++ l) [] [] G := by
              refine ⟨?_, ?_, ?_, ?_, sh.size, by simp, Or.inl rfl⟩
              · show lr1.buff = _
                rw [sh.buff]; simp
              · show lr1.buff_end = _
                rw [sh.fin]; simp
              · show lr1.line_end = _
                rw [sh.stop]; simp
              · show lr1.buff_end = _
                rw [sh.fin]; simp
            have hp2 : pending { lr1 with line_start := lr1.buff_end } = [] := by
              rw [pending_shape _ _ _ _ _ hsh2]
              simp [hf]
            refine ⟨some lr1.line_start, { lr1 with line_start := lr1.buff_end }, ?_,
              Or.inr ⟨_, _, _, _, hsh2⟩, ?_, h1ns, ?_, ?_, ?_⟩
            · rw [next_loop, hrun]
              simp only [hf, if_neg hne]
            · refine ⟨h1c.stream, h1c.full, h1c.first, h1c.pos, ?_, h1c.mem, h1c.word⟩
              rw [hp2]; simp
            · rw [h1scan, hp, hp2]
              have hd : lr1.buff.drop lr1.line_start = l ++ 0 :: G := by
                rw [sh.buff, sh.start]
                simp
              have hcl : ∀ c ∈ l, is_eol lr.nullSeparator c = false := by
                rw [← h1ns]; exact sh.clean
              simp only [line_at, hd, List.nil_append]
              rw [c_string_clean lr.nullSeparator l G hcl, scan_last _ l hcl]
              simp [last_line, hl, scan_lines]
            · intro _
              rw [hp2]
              rw [hp] at h1le
              simp only [List.length_nil]
              omega
            · intro h; exact absurd h (by simp)
      | some f =>
        obtain ⟨lr3, l', R', G', hre, hsh3, hc3, h3ns, h3scan, h3len, h3fuel⟩ :=
          refill_calm lr1 l M f hh h1c hf
        have hfuel3 : next_fuel lr3 ≤ fuel := by omega
        obtain ⟨q, lr', hrun', hinv', hc', hns', hscan', hlt', hnone'⟩ :=
          ih lr3 (Or.inr ⟨_, _, _, _, hsh3⟩) hc3 hfuel3
        refine ⟨q, lr', ?_, hinv', hc', ?_, ?_, ?_, hnone'⟩
        · rw [next_loop, hrun]
          simp only [hf, hre]
          exact hrun'
        · rw [hns', h3ns, h1ns]
        · rw [h1scan, ← h1ns, h3scan, ← h3ns, hscan']
          simp [line_at]
        · intro hq
          have := hlt' hq
          omega

/-- Successive calls in the calm setting return the lines of the pending
text, then `NULL` with status 0. -/
theorem read_lines_calm (M : Nat) : ∀ (calls : Nat) (lr : struct_lafe_line_reader),
    Inv lr → Calm lr M → (pending lr).length < calls →
    ∃ lr', read_lines calls lr =
        some (scan_lines lr.nullSeparator [] (pending lr), 0, lr') ∧
      lr'.f = none ∧ pending lr' = [] := by
  intro calls
  induction calls with
  | zero => intro lr _ _ h; omega
  | succ calls ih =>
    intro lr hinv hc hcalls
    obtain ⟨q, lr1, hrun, hinv1, hc1, hns, hscan, hlt, hnone⟩ :=
      next_loop_calm M (next_fuel lr) lr hinv hc (Nat.le_refl _)
    cases q with
    | none =>
      obtain ⟨hp, hf⟩ := hnone rfl
      refine ⟨lr1, ?_, hf, hp⟩
      rw [read_lines, lafe_line_reader_next, hrun, hscan, hp]
      simp [line_at, scan_lines, last_line]
    | some q =>
      have hlt1 := hlt (by simp)
      obtain ⟨lr2, hrun2, hf2, hp2⟩ := ih lr1 hinv1 hc1 (by omega)
      refine ⟨lr2, ?_, hf2, hp2⟩
      rw [read_lines, lafe_line_reader_next, hrun]
      simp only [hrun2, hscan, line_at, hns]
      simp

theorem splitOnP_agree (p q : Nat → Bool) (T : List Nat) (h : ∀ c ∈ T, p c = q c) :
    T.splitOnP p = T.splitOnP q := by
  induction T with
  | nil => simp
  | cons a T ih =>
    rw [List.splitOnP_cons, List.splitOnP_cons, h a (List.mem_cons_self a T),
      ih (fun c hc => h c (List.mem_cons_of_mem a hc))]

theorem not_eol_iff {ns : Int} (l : List Nat) (h : ∀ c ∈ l, is_eol ns c = false) :
    ∀ x ∈ l, ¬ (is_eol ns x = true) := by
  intro x hx; rw [h x hx]; simp

/-- In newline mode the scan gives the non-empty pieces between line ends. -/
theorem scan_newline : ∀ (n : Nat) (T : List Nat), T.length ≤ n →
    scan_lines 0 [] T =
      (T.splitOnP (is_eol 0)).filter (fun piece => !piece.isEmpty) := by
  intro n
  induction n with
  | zero =>
    intro T h
    have : T = [] := List.length_eq_zero.mp (by omega)
    subst this
    simp [scan_lines, last_line]
  | succ n ih =>
    intro T h
    rcases first_eol 0 T with hcl | ⟨l, t, r, hs, hl, ht⟩
    · rw [scan_last 0 T hcl, List.splitOnP_eq_single (is_eol 0) T (not_eol_iff T hcl)]
      cases T <;> simp [last_line]
    · have hr : r.length ≤ n := by
        have := congrArg List.length hs
        simp at this; omega
      rw [hs, scan_first 0 l t r hl ht, List.splitOnP_first (is_eol 0) l (not_eol_iff l hl) t ht,
        ih r hr]
      cases l <;> simp [emit_line]

theorem drop_empty_tail_cons (l : List Nat) (S : List (List Nat)) (h : S ≠ []) :
    drop_empty_tail (l :: S) = l :: drop_empty_tail S := by
  cases S with
  | nil => exact absurd rfl h
  | cons s S =>
    unfold drop_empty_tail
    rw [List.getLast?_cons_cons]
    split <;> simp

/-- In null mode the scan gives the pieces between zero bytes, less an empty
last one. -/
theorem scan_null (ns : Int) (hns : ns ≠ 0) : ∀ (n : Nat) (T : List Nat), T.length ≤ n →
    scan_lines ns [] T = drop_empty_tail (T.splitOnP (is_eol ns)) := by
  intro n
  induction n with
  | zero =>
    intro T h
    have : T = [] := List.length_eq_zero.mp (by omega)
    subst this
    simp [scan_lines, last_line, drop_empty_tail]
  | succ n ih =>
    intro T h
    rcases first_eol ns T with hcl | ⟨l, t, r, hs, hl, ht⟩
    · rw [scan_last ns T hcl, List.splitOnP_eq_single (is_eol ns) T (not_eol_iff T hcl)]
      cases T <;> simp [last_line, drop_empty_tail]
    · have hr : r.length ≤ n := by
        have := congrArg List.length hs
        simp at this; omega
      rw [hs, scan_first ns l t r hl ht, List.splitOnP_first (is_eol ns) l (not_eol_iff l hl) t ht,
        ih r hr, drop_empty_tail_cons l _ (List.splitOnP_ne_nil _ _)]
      simp [emit_line, hns]

theorem hungry_sound (lr : struct_lafe_line_reader) (l : List Nat) (h : Hungry lr l)
    (hpos : 0 < lr.buff_length) : Sound lr := by
  rcases h with ⟨hf, _⟩ | ⟨A, G, sh⟩ | ⟨G, st⟩
  · exact ⟨hpos, Or.inl hf⟩
  · exact ⟨hpos, Or.inr (Or.inl ⟨A, l, [], G, sh⟩)⟩
  · exact ⟨hpos, Or.inr (Or.inr ⟨l, G, st⟩)⟩

theorem hungry_open (lr : struct_lafe_line_reader) (f : FILE) (hf : lr.f = some f) :
    lr.f ≠ none := by
  rw [hf]; simp

/-- The inner loop from any state between two calls. -/
theorem while_sound (lr : struct_lafe_line_reader) (hs : Sound lr) :
    ∃ q1 lr1, next_while (lr.buff_end - lr.line_end + 1) lr = some (q1, lr1) ∧
      lr1.f = lr.f ∧ lr1.buff_length = lr.buff_length ∧
      (q1 ≠ none → ∃ A l R G, Shape lr1 A l R G) ∧
      (q1 = none → ∃ l, Hungry lr1 l) := by
  rcases hs.2 with hf | ⟨A, l, R, G, sh⟩ | ⟨l, G, st⟩
  · have hlt : ¬ lr.line_end < lr.buff_end := by rw [hf.stop, hf.fin]; simp
    refine ⟨none, lr, ?_, rfl, rfl, ?_, ?_⟩
    · rw [next_while, if_neg hlt]
    · intro h; exact absurd rfl h
    · intro _; exact ⟨[], Or.inl ⟨hf, rfl⟩⟩
  · have hfuel : R.length < lr.buff_end - lr.line_end + 1 := by
      rw [sh.fin, sh.stop]; omega
    obtain ⟨q, b, s, e, A', l', R', G', hrun, hsh, hq1, _, _, _⟩ :=
      next_while_spec _ lr A l R G sh hfuel
    refine ⟨q, _, hrun, rfl, rfl, ?_, ?_⟩
    · intro _; exact ⟨A', l', R', G', hsh⟩
    · intro hnone
      have := hq1 hnone
      subst this
      exact ⟨l', Or.inr (Or.inl ⟨A', G', hsh⟩)⟩
  · have hlt : ¬ lr.line_end < lr.buff_end := by rw [st.stop, st.fin]; simp
    refine ⟨none, lr, ?_, rfl, rfl, ?_, ?_⟩
    · rw [next_while, if_neg hlt]
    · intro h; exact absurd rfl h
    · intro _; exact ⟨l, Or.inr (Or.inr ⟨G, st⟩)⟩

/-- The second half of a refill, from a buffer with room: the call returns -1
on a stream error, else the loop goes round again with a shorter stream. -/
theorem fill_sound (lr lr2 : struct_lafe_line_reader) (l X : List Nat) (f : FILE)
    (hmr : next_make_room lr = (true, lr2)) (hroomy : Roomy lr2 l X) (hf : lr.f = some f) :
    ∃ ok lr3, next_refill lr f = (ok, lr3) ∧ Sound lr3 ∧
      (ok = true → (∃ A l R G, Shape lr3 A l R G) ∧ next_fuel lr3 < next_fuel lr) ∧
      (ok = false → lr3.f ≠ none ∧ Cause lr3) := by
  obtain ⟨l2, R', G', hsh, h3f, _, _, _, h3len, _, _, _⟩ := next_fill_fields lr2 l X f hroomy
  have hpos3 : 0 < (next_fill lr2 f).buff_length := by
    rw [h3len]; have := hroomy.room; omega
  have hwant : 0 < lr2.buff_length - lr2.buff_end := by
    rw [hroomy.fin]; have := hroomy.room; omega
  have hfuel : next_fuel lr = f.data.length + 2 := by
    unfold next_fuel; rw [hf]
  cases herr : ferror (fread (lr2.buff_length - lr2.buff_end) f).2 with
  | true =>
    refine ⟨false, next_fill lr2 f, ?_, ⟨hpos3, Or.inr (Or.inl ⟨_, _, _, _, hsh⟩)⟩, ?_, ?_⟩
    · unfold next_refill
      rw [hmr]
      simp only [herr, if_true]
    · intro h; exact absurd h (by simp)
    · intro _
      refine ⟨by rw [h3f]; simp, Or.inr (Or.inr ⟨_, h3f, herr⟩)⟩
  | false =>
    cases heof : feof (fread (lr2.buff_length - lr2.buff_end) f).2 with
    | true =>
      have hsh' := shape_close _ _ _ _ _ hsh
      refine ⟨true, { next_fill lr2 f with f := none }, ?_,
        ⟨hpos3, Or.inr (Or.inl ⟨_, _, _, _, hsh'⟩)⟩, ?_, ?_⟩
      · unfold next_refill
        rw [hmr]
        simp only [herr, heof, if_true]
        simp
      · intro _
        refine ⟨⟨_, _, _, _, hsh'⟩, ?_⟩
        rw [hfuel]; unfold next_fuel; simp
      · intro h; exact absurd h (by simp)
    | false =>
      refine ⟨true, next_fill lr2 f, ?_, ⟨hpos3, Or.inr (Or.inl ⟨_, _, _, _, hsh⟩)⟩, ?_, ?_⟩
      · unfold next_refill
        rw [hmr]
        simp only [herr, heof]
        simp
      · intro _
        refine ⟨⟨_, _, _, _, hsh⟩, ?_⟩
        have hfull : lr2.buff_length - lr2.buff_end ≤ f.data.length := by
          by_contra hshort
          obtain ⟨_, r2, r3, _, _⟩ := fread_short _ f hshort
          unfold ferror at herr
          unfold feof at heof
          rw [r3] at herr
          rw [r2] at heof
          cases hb : f.bad <;> simp [hb] at herr heof
        obtain ⟨_, _, _, _, r5⟩ := fread_full _ f hfull
        rw [hfuel]
        unfold next_fuel
        rw [h3f]
        show (fread (lr2.buff_length - lr2.buff_end) f).2.data.length + 2 < _
        rw [r5]; omega
      · intro h; exact absurd h (by simp)

/-- A refill from any state that goes for one: the call returns -1 for one of
the three causes, or the loop goes round again on a buffer in shape, with a
shorter stream. -/
theorem refill_sound (lr : struct_lafe_line_reader) (l : List Nat) (f : FILE)
    (h : Hungry lr l) (hpos : 0 < lr.buff_length) (hf : lr.f = some f) :
    ∃ ok lr3, next_refill lr f = (ok, lr3) ∧ Sound lr3 ∧
      (ok = true → (∃ A l R G, Shape lr3 A l R G) ∧ next_fuel lr3 < next_fuel lr) ∧
      (ok = false → lr3.f ≠ none ∧ Cause lr3) := by
  have hopen : lr.f ≠ none := hungry_open lr f hf
  by_cases hls : 0 < lr.line_start
  · rcases h with ⟨hfr, _⟩ | ⟨A, G, sh⟩ | ⟨G, st⟩
    · have := hfr.start; omega
    · obtain ⟨X, hmr, hroomy⟩ := make_room_move lr A l G sh hls
      exact fill_sound lr _ l X f hmr hroomy hf
    · have := st.start; omega
  · have hzero : lr.line_start = 0 := by omega
    have hnpos : ¬ lr.line_start > 0 := by omega
    by_cases hwrap : lr.buff_length < (lr.buff_length * 2) % 2 ^ lr.size_bits
    · by_cases hmem : (lr.buff_length * 2) % 2 ^ lr.size_bits + 1 ≤ lr.heap_avail
      · obtain ⟨X, hmr, hroomy⟩ := make_room_grow lr l h hzero hwrap hmem
        exact fill_sound lr _ l X f hmr hroomy hf
      · -- `realloc` fails
        have hnle : ¬ (lr.buff_length * 2) % 2 ^ lr.size_bits ≤ lr.buff_length := by omega
        have hsucc := double_mod_succ lr.buff_length lr.size_bits hwrap
        have hmr : next_make_room lr =
            (false, { lr with buff_length := (lr.buff_length * 2) % 2 ^ lr.size_bits }) := by
          unfold next_make_room
          rw [if_neg hnpos]
          simp only [if_neg hnle, hsucc, realloc, if_neg hmem]
        have hlen : lr.buff.length ≤ (lr.buff_length * 2) % 2 ^ lr.size_bits := by
          rcases h with ⟨hfr, _⟩ | ⟨A, G, sh⟩ | ⟨G, st⟩
          · rw [hfr.buff]; simp
          · rw [sh.size]; omega
          · have := st.size; omega
        refine ⟨false, { lr with buff_length := (lr.buff_length * 2) % 2 ^ lr.size_bits }, ?_, ⟨?_, ?_⟩, ?_, ?_⟩
        · unfold next_refill
          rw [hmr]
        · show 0 < (lr.buff_length * 2) % 2 ^ lr.size_bits
          omega
        · rcases h with ⟨hfr, _⟩ | ⟨A, G, sh⟩ | ⟨G, st⟩
          · exact Or.inl ⟨hfr.buff, hfr.fin, hfr.start, hfr.stop, hfr.opened⟩
          · have hA : A = [] := by
              have := sh.start; rw [hzero] at this
              exact List.length_eq_zero.mp this.symm
            subst hA
            refine Or.inr (Or.inr ⟨l, G, ?_, hzero, ?_, ?_, hlen, sh.clean, hopen⟩)
            · simpa using sh.buff
            · simpa using sh.stop
            · simpa using sh.fin
          · exact Or.inr (Or.inr ⟨l, G, st.buff, st.start, st.stop, st.fin, hlen, st.clean,
              st.opened⟩)
        · intro h; exact absurd h (by simp)
        · intro _
          refine ⟨hopen, Or.inr (Or.inl ⟨?_, hlen⟩)⟩
          show lr.heap_avail < (lr.buff_length * 2) % 2 ^ lr.size_bits + 1
          omega
    · -- the doubling wraps around
      have hle : (lr.buff_length * 2) % 2 ^ lr.size_bits ≤ lr.buff_length := by omega
      have hmr : next_make_room lr = (false, lr) := by
        unfold next_make_room
        rw [if_neg hnpos]
        simp only [if_pos hle]
      refine ⟨false, lr, ?_, hungry_sound lr l h hpos, ?_, ?_⟩
      · unfold next_refill
        rw [hmr]
      · intro h; exact absurd h (by simp)
      · intro _
        refine ⟨hopen, Or.inl ?_⟩
        by_contra hlt
        have : (lr.buff_length * 2) % 2 ^ lr.size_bits = lr.buff_length * 2 :=
          Nat.mod_eq_of_lt (by omega)
        omega

/-- A reader just made, whatever the buffer length it starts with, on a
sound stream, with `size_t` and memory to spare, is in the calm setting with
the whole content pending. -/
theorem fresh_reader_calm (content pathname : List Nat) (ns : Int)
    (L bits heap junk : Nat) (lr0 : struct_lafe_line_reader)
    (hopen : lafe_line_reader pathname (some (fopen content)) ns bits heap junk = some lr0)
    (hL : 0 < L) (hword : 2 * (L + content.length) + 1 < 2 ^ bits)
    (hmem : 2 * (L + content.length) + 1 ≤ heap) :
    Inv { lr0 with buff_length := L } ∧ Calm { lr0 with buff_length := L } (L + content.length) ∧
      pending { lr0 with buff_length := L } = content ∧ lr0.nullSeparator = ns := by
  have h0 : lr0 = { f := some (fopen content), buff := [], buff_end := 0, line_start := 0, line_end := 0, p := 0, pathname := pathname, buff_length := 8192, nullSeparator := ns, ret := 0, size_bits := bits, heap_avail := heap, junk := junk } := by
    unfold lafe_line_reader at hopen
    simp only [Option.some.injEq] at hopen
    exact hopen.symm
  subst h0
  have hfresh : Fresh { f := some (fopen content), buff := [], buff_end := 0, line_start := 0, line_end := 0, p := 0, pathname := pathname, buff_length := L, nullSeparator := ns, ret := 0, size_bits := bits, heap_avail := heap, junk := junk } :=
    ⟨rfl, rfl, rfl, rfl, by simp⟩
  have hpend : pending { f := some (fopen content), buff := [], buff_end := 0, line_start := 0, line_end := 0, p := 0, pathname := pathname, buff_length := L, nullSeparator := ns, ret := 0, size_bits := bits, heap_avail := heap, junk := junk } = content := by
    simp [pending, fopen]
  refine ⟨Or.inl hfresh, ?_, hpend, rfl⟩
  refine ⟨?_, ?_, ?_, hL, ?_, hmem, hword⟩
  · intro f hf
    simp only [Option.some.injEq] at hf
    subst hf
    simp [fopen]
  · intro _; exact Or.inl rfl
  · intro _; show L ≤ L + content.length; omega
  · rw [hpend]; omega

/-- From such a reader successive calls return the lines of the content,
then `NULL` with status 0. -/
theorem fresh_reader_lines (content pathname : List Nat) (ns : Int)
    (L bits heap junk calls : Nat) (lr0 : struct_lafe_line_reader)
    (hopen : lafe_line_reader pathname (some (fopen content)) ns bits heap junk = some lr0)
    (hL : 0 < L) (hword : 2 * (L + content.length) + 1 < 2 ^ bits)
    (hmem : 2 * (L + content.length) + 1 ≤ heap) (hcalls : content.length < calls) :
    ∃ lr', read_lines calls { lr0 with buff_length := L } =
        some (scan_lines ns [] content, 0, lr') ∧ lr'.f = none := by
  obtain ⟨hinv, hcalm, hpend, hns⟩ :=
    fresh_reader_calm content pathname ns L bits heap junk lr0 hopen hL hword hmem
  obtain ⟨lr', hrun, hf, _⟩ := read_lines_calm (L + content.length) calls _ hinv hcalm
    (by rw [hpend]; exact hcalls)
  rw [hpend] at hrun
  rw [← hns]
  exact ⟨lr', hrun, hf⟩

/-- C1: with `nullSeparator = 0`, on a content without zero byte, the
successive calls of `lafe_line_reader_next` return, up to the call that gives
status 0 and `NULL`, the non-empty pieces of the content split at every CR and
LF, an unterminated last piece included, whatever the buffer length the reader
starts with (8192 in the code), that is wherever the refills fall. -/
theorem newline_mode_lines (content pathname : List Nat)
    (L bits heap junk calls : Nat) (lr0 : struct_lafe_line_reader)
    (hopen : lafe_line_reader pathname (some (fopen content)) 0 bits heap junk = some lr0)
    (hzero : ∀ c ∈ content, c ≠ 0)
    (hL : 0 < L) (hword : 2 * (L + content.length) + 1 < 2 ^ bits)
    (hmem : 2 * (L + content.length) + 1 ≤ heap) (hcalls : content.length < calls) :
    ∃ lr', read_lines calls { lr0 with buff_length := L } =
        some (crlf_pieces content, 0, lr') ∧ lr'.f = none := by
  obtain ⟨lr', hrun, hf⟩ :=
    fresh_reader_lines content pathname 0 L bits heap junk calls lr0 hopen hL hword hmem hcalls
  refine ⟨lr', ?_, hf⟩
  rw [hrun, scan_newline content.length content (Nat.le_refl _)]
  unfold crlf_pieces
  rw [splitOnP_agree (is_eol 0) (fun c => decide (c = 13 ∨ c = 10)) content]
  intro c hc
  have := hzero c hc
  simp [is_eol, this]

/-- C1, at the content `'a' CR LF 'b' LF 'c'` read through a buffer that
starts with length 1. -/
theorem newline_mode_lines_witness :
    (∃ lr', read_lines 7
        { f := some (fopen [97, 13, 10, 98, 10, 99]), buff := [], buff_end := 0, line_start := 0, line_end := 0, p := 0, pathname := [45], buff_length := 1, nullSeparator := 0, ret := 0, size_bits := 64, heap_avail := 100, junk := 255 } =
        some (crlf_pieces [97, 13, 10, 98, 10, 99], 0, lr') ∧ lr'.f = none) ∧
    crlf_pieces [97, 13, 10, 98, 10, 99] = [[97], [98], [99]] :=
  ⟨newline_mode_lines [97, 13, 10, 98, 10, 99] [45] 1 64 100 255 7 _ rfl (by decide) (by decide)
    (by decide) (by decide) (by decide), by decide⟩

/-- C2: with `nullSeparator` non-zero, on any content, the successive calls of
`lafe_line_reader_next` return, up to the call that gives status 0 and `NULL`,
the pieces of the content split at every zero byte, empty pieces included,
but nothing for the empty tail behind a final zero byte nor for an empty
content; CR and LF do not split. -/
theorem null_mode_lines (content pathname : List Nat) (ns : Int)
    (L bits heap junk calls : Nat) (lr0 : struct_lafe_line_reader)
    (hopen : lafe_line_reader pathname (some (fopen content)) ns bits heap junk = some lr0)
    (hns : ns ≠ 0)
    (hL : 0 < L) (hword : 2 * (L + content.length) + 1 < 2 ^ bits)
    (hmem : 2 * (L + content.length) + 1 ≤ heap) (hcalls : content.length < calls) :
    ∃ lr', read_lines calls { lr0 with buff_length := L } =
        some (nul_pieces content, 0, lr') ∧ lr'.f = none := by
  obtain ⟨lr', hrun, hf⟩ :=
    fresh_reader_lines content pathname ns L bits heap junk calls lr0 hopen hL hword hmem hcalls
  refine ⟨lr', ?_, hf⟩
  rw [hrun, scan_null ns hns content.length content (Nat.le_refl _)]
  unfold nul_pieces
  rw [splitOnP_agree (is_eol ns) (fun c => decide (c = 0)) content]
  intro c _
  simp [is_eol, hns]

/-- C2, at the content `0 0 'a' CR LF 'b' 0 'c' 0` read through a buffer that
starts with length 1. -/
theorem null_mode_lines_witness :
    (∃ lr', read_lines 10
        { f := some (fopen [0, 0, 97, 13, 10, 98, 0, 99, 0]), buff := [], buff_end := 0, line_start := 0, line_end := 0, p := 0, pathname := [45], buff_length := 1, nullSeparator := 1, ret := 0, size_bits := 64, heap_avail := 100, junk := 255 } =
        some (nul_pieces [0, 0, 97, 13, 10, 98, 0, 99, 0], 0, lr') ∧ lr'.f = none) ∧
    nul_pieces [0, 0, 97, 13, 10, 98, 0, 99, 0] = [[], [], [97, 13, 10, 98], [99]] ∧
    nul_pieces [] = [] :=
  ⟨null_mode_lines [0, 0, 97, 13, 10, 98, 0, 99, 0] [45] 1 1 64 100 255 10 _ rfl (by decide)
    (by decide) (by decide) (by decide) (by decide), by decide, by decide⟩

/-- C9: in either mode, a file made of one line of `n ≥ 1` bytes that are not
line ends, followed by a line end, makes the first call return the whole
line and the second report the end of input with status 0 and `NULL`,
whatever the length of the line and of the buffer the reader starts with
(8192 in the code, doubled to 16384 by the first call). -/
theorem long_line_whole (line pathname : List Nat) (t : Nat) (ns : Int)
    (L bits heap junk : Nat) (lr0 : struct_lafe_line_reader)
    (hopen : lafe_line_reader pathname (some (fopen (line ++ [t]))) ns bits heap junk = some lr0)
    (hn : 1 ≤ line.length)
    (hline : ∀ c ∈ line, is_eol ns c = false) (ht : is_eol ns t = true)
    (hL : 0 < L) (hword : 2 * (L + (line.length + 1)) + 1 < 2 ^ bits)
    (hmem : 2 * (L + (line.length + 1)) + 1 ≤ heap) :
    ∃ lr1 q lr2,
      lafe_line_reader_next { lr0 with buff_length := L } = some (0, some q, lr1) ∧
      c_string (lr1.buff.drop q) = line ∧
      lafe_line_reader_next lr1 = some (0, none, lr2) := by
  have hlen : (line ++ [t]).length = line.length + 1 := by simp
  obtain ⟨hinv, hcalm, hpend, hns⟩ :=
    fresh_reader_calm (line ++ [t]) pathname ns L bits heap junk lr0 hopen hL
      (by rw [hlen]; exact hword) (by rw [hlen]; exact hmem)
  have hne : line ≠ [] := by
    intro h; rw [h] at hn; simp at hn
  have hscan : scan_lines ns [] (line ++ [t]) = [line] := by
    rw [scan_first ns line t [] hline ht]
    simp [emit_line, hne, scan_lines, last_line]
  -- the first call
  obtain ⟨q, lr1, hrun1, hinv1, hcalm1, hns1, hscan1, _, hnone1⟩ :=
    next_loop_calm _ _ _ hinv hcalm (Nat.le_refl _)
  have hns1' : lr1.nullSeparator = ns := by rw [hns1]; exact hns
  rw [hpend] at hscan1
  have hns0 : ({ lr0 with buff_length := L } : struct_lafe_line_reader).nullSeparator = ns := hns
  rw [hns0, hscan] at hscan1
  cases q with
  | none =>
    obtain ⟨hp, _⟩ := hnone1 rfl
    rw [hp] at hscan1
    simp [line_at, scan_lines, last_line] at hscan1
  | some q =>
    simp only [line_at, List.singleton_append] at hscan1
    have hline1 : c_string (lr1.buff.drop q) = line := by
      have := List.head_eq_of_cons_eq hscan1
      exact this.symm
    have hrest : scan_lines ns [] (pending lr1) = [] := by
      have := List.tail_eq_of_cons_eq hscan1
      exact this.symm
    -- the second call
    obtain ⟨q2, lr2, hrun2, _, _, _, hscan2, _, _⟩ :=
      next_loop_calm _ _ _ hinv1 hcalm1 (Nat.le_refl _)
    rw [hns1', hrest] at hscan2
    cases q2 with
    | some q2 => simp [line_at] at hscan2
    | none => exact ⟨lr1, q, lr2, hrun1, hline1, hrun2⟩

/-- C9, at a line of five bytes read in newline mode through a buffer that
starts with length 1; the run of the calls evaluated there, and on a line
holding CR and LF in null mode. -/
theorem long_line_whole_witness :
    (∃ lr1 q lr2,
      lafe_line_reader_next { f := some (fopen ([1, 2, 3, 4, 5] ++ [10])), buff := [], buff_end := 0, line_start := 0, line_end := 0, p := 0, pathname := [45], buff_length := 1, nullSeparator := 0, ret := 0, size_bits := 64, heap_avail := 100, junk := 255 } = some (0, some q, lr1) ∧
      c_string (lr1.buff.drop q) = [1, 2, 3, 4, 5] ∧
      lafe_line_reader_next lr1 = some (0, none, lr2)) ∧
    (read_lines 3 (reader_on (fopen ([1, 2, 3, 4, 5] ++ [10])) 0 1 64 100)).map
        (fun r => (r.1, r.2.1)) = some ([[1, 2, 3, 4, 5]], 0) ∧
    (read_lines 3 (reader_on (fopen ([13, 10, 7, 13, 10] ++ [0])) 1 1 64 100)).map
        (fun r => (r.1, r.2.1)) = some ([[13, 10, 7, 13, 10]], 0) :=
  ⟨long_line_whole [1, 2, 3, 4, 5] [45] 10 0 1 64 100 255 _ rfl (by decide) (by decide)
    (by decide) (by decide) (by decide) (by decide), by decide, by decide⟩

/-- One call from any state between two calls: it returns; with status 0 it
leaves a buffer in shape, and `NULL` only with the stream closed and nothing
left in the buffer; with status -1 it stores `NULL`, leaves the stream open
and has one of the three causes. -/
theorem next_loop_sound : ∀ (fuel : Nat) (lr : struct_lafe_line_reader),
    Sound lr → next_fuel lr ≤ fuel →
    ∃ st q lr', next_loop fuel lr = some (st, q, lr') ∧ Sound lr' ∧
      (lr.f = none → lr'.f = none) ∧
      ((st = 0 ∧ (∃ A l R G, Shape lr' A l R G) ∧
          (q = none → lr'.f = none ∧ lr'.line_start = lr'.buff_end ∧
            lr'.line_end = lr'.buff_end)) ∨
       (st = -1 ∧ q = none ∧ lr'.f ≠ none ∧ Cause lr')) := by
  intro fuel
  induction fuel with
  | zero =>
    intro lr _ h
    have := next_fuel_pos lr
    omega
  | succ fuel ih =>
    intro lr hs hfuel
    obtain ⟨q1, lr1, hrun, h1f, h1len, h1some, h1none⟩ := while_sound lr hs
    have hpos1 : 0 < lr1.buff_length := by rw [h1len]; exact hs.1
    cases q1 with
    | some q =>
      obtain ⟨A, l, R, G, sh⟩ := h1some (by simp)
      refine ⟨0, some q, lr1, ?_, ⟨hpos1, Or.inr (Or.inl ⟨A, l, R, G, sh⟩)⟩, ?_,
        Or.inl ⟨rfl, ⟨A, l, R, G, sh⟩, ?_⟩⟩
      · rw [next_loop, hrun]
      · intro h; rw [h1f]; exact h
      · intro h; exact absurd h (by simp)
    | none =>
      obtain ⟨l, hh⟩ := h1none rfl
      have hfuel1 : next_fuel lr1 = next_fuel lr := by
        unfold next_fuel; rw [h1f]
      cases hf : lr1.f with
      | none =>
        rcases hh with ⟨hfr, _⟩ | ⟨A, G, sh⟩ | ⟨G, st⟩
        · exact absurd hf hfr.opened
        rotate_left
        · exact absurd hf st.opened
        · by_cases heq : lr1.line_start = lr1.buff_end
          · refine ⟨0, none, lr1, ?_, ⟨hpos1, Or.inr (Or.inl ⟨A, l, [], G, sh⟩)⟩, ?_,
              Or.inl ⟨rfl, ⟨A, l, [], G, sh⟩, ?_⟩⟩
            · rw [next_loop, hrun]
              simp only [hf, if_pos heq]
            · intro _; exact hf
            · intro _
              refine ⟨hf, heq, ?_⟩
              rw [sh.stop, sh.fin]; simp
          · have hsh2 : Shape { lr1 with line_start := lr1.buff_end } (A ++ l) [] [] G := by
              refine ⟨?_, ?_, ?_, ?_, sh.size, by simp, Or.inl rfl⟩
              · show lr1.buff = _
                rw [sh.buff]; simp
              · show lr1.buff_end = _
                rw [sh.fin]; simp
              · show lr1.line_end = _
                rw [sh.stop]; simp
              · show lr1.buff_end = _
                rw [sh.fin]; simp
            refine ⟨0, some lr1.line_start, { lr1 with line_start := lr1.buff_end }, ?_,
              ⟨hpos1, Or.inr (Or.inl ⟨_, _, _, _, hsh2⟩)⟩, ?_,
              Or.inl ⟨rfl, ⟨_, _, _, _, hsh2⟩, ?_⟩⟩
            · rw [next_loop, hrun]
              simp only [hf, if_neg heq]
            · intro _; exact hf
            · intro h; exact absurd h (by simp)
      | some f =>
        have hopen : lr.f ≠ none := by rw [← h1f, hf]; simp
        obtain ⟨ok, lr3, hre, hs3, hok, hfail⟩ := refill_sound lr1 l f hh hpos1 hf
        cases ok with
        | false =>
          obtain ⟨h3f, h3c⟩ := hfail rfl
          refine ⟨-1, none, lr3, ?_, hs3, ?_, Or.inr ⟨rfl, rfl, h3f, h3c⟩⟩
          · rw [next_loop, hrun]
            simp only [hf, hre]
          · intro h; exact absurd h hopen
        | true =>
          obtain ⟨_, h3fuel⟩ := hok rfl
          obtain ⟨st, q, lr', hrun', hs', _, hres⟩ := ih lr3 hs3 (by omega)
          refine ⟨st, q, lr', ?_, hs', ?_, hres⟩
          · rw [next_loop, hrun]
            simp only [hf, hre]
            exact hrun'
          · intro h; exact absurd h hopen

/-- The reader `lafe_line_reader` returns is sound. -/
theorem fresh_reader_sound (pathname : List Nat) (stream : Option FILE) (ns : Int)
    (bits heap junk : Nat) (lr0 : struct_lafe_line_reader)
    (hopen : lafe_line_reader pathname stream ns bits heap junk = some lr0) : Sound lr0 := by
  unfold lafe_line_reader at hopen
  cases stream with
  | none => simp at hopen
  | some f =>
    simp only [Option.some.injEq] at hopen
    subst hopen
    exact ⟨by show 0 < 8192; decide, Or.inl ⟨rfl, rfl, rfl, rfl, by simp⟩⟩

/-- C10: from the reader `lafe_line_reader` gives and from every reader a call
leaves, `lafe_line_reader_next` returns, with status 0 or -1. With -1 it has
stored `NULL`, the stream is still open and one of three events has occurred:
the doubling of `buff_length` does not fit `size_t`, `realloc` found no memory
for the doubled buffer, or the stream has its error indicator set after a
refill. Status 0 with `NULL` is the end of input: the stream is closed and
the buffer used up; a call that finds or leaves the stream closed at its end
of file returns 0. -/
theorem next_status (lr : struct_lafe_line_reader) (hs : Sound lr) :
    ∃ st q lr', lafe_line_reader_next lr = some (st, q, lr') ∧ Sound lr' ∧
      (st = 0 ∨ st = -1) ∧
      (st = -1 → q = none ∧ Cause lr' ∧ lr'.f ≠ none) ∧
      (st = 0 → q = none → lr'.f = none ∧ lr'.line_start = lr'.buff_end) ∧
      (lr'.f = none → st = 0) ∧
      (lr.f = none → st = 0) := by
  obtain ⟨st, q, lr', hrun, hs', hclosed, hres⟩ :=
    next_loop_sound (next_fuel lr) lr hs (Nat.le_refl _)
  refine ⟨st, q, lr', hrun, hs', ?_, ?_, ?_, ?_, ?_⟩
  · rcases hres with ⟨h, _⟩ | ⟨h, _⟩
    · exact Or.inl h
    · exact Or.inr h
  · intro hst
    rcases hres with ⟨h, _⟩ | ⟨_, hq, hf, hc⟩
    · rw [h] at hst; exact absurd hst (by decide)
    · exact ⟨hq, hc, hf⟩
  · intro hst hq
    rcases hres with ⟨_, _, h⟩ | ⟨h, _⟩
    · exact ⟨(h hq).1, (h hq).2.1⟩
    · rw [h] at hst; exact absurd hst (by decide)
  · intro hf
    rcases hres with ⟨h, _⟩ | ⟨_, _, hf', _⟩
    · exact h
    · exact absurd hf hf'
  · intro hf
    rcases hres with ⟨h, _⟩ | ⟨_, _, hf', _⟩
    · exact h
    · exact absurd (hclosed hf) hf'

/-- C10, at a reader whose stream delivers `'a' LF` and then fails; and the
three returns of -1 evaluated: that read error, a doubling of 8192 that wraps
around a 14-bit `size_t`, a `realloc` of 16385 bytes with 100 obtainable. -/
theorem next_status_witness :
    (∃ st q lr',
      lafe_line_reader_next (reader_on ⟨[97, 10], true, false, false⟩ 0 1 64 100) =
        some (st, q, lr') ∧ Sound lr' ∧
      (st = 0 ∨ st = -1) ∧
      (st = -1 → q = none ∧ Cause lr' ∧ lr'.f ≠ none) ∧
      (st = 0 → q = none → lr'.f = none ∧ lr'.line_start = lr'.buff_end) ∧
      (lr'.f = none → st = 0) ∧
      ((reader_on ⟨[97, 10], true, false, false⟩ 0 1 64 100).f = none → st = 0)) ∧
    (lafe_line_reader_next (reader_on ⟨[97, 10], true, false, false⟩ 0 1 64 100)).map
        (fun r => (r.1, r.2.1)) = some (0, some 0) ∧
    (lafe_line_reader_next (reader_on ⟨[97], true, false, false⟩ 0 1 64 100)).map
        (fun r => (r.1, r.2.1)) = some (-1, none) ∧
    (lafe_line_reader_next (reader_on (fopen [97, 10]) 0 8192 14 100000)).map
        (fun r => (r.1, r.2.1)) = some (-1, none) ∧
    (lafe_line_reader_next (reader_on (fopen [97, 10]) 0 8192 64 100)).map
        (fun r => (r.1, r.2.1)) = some (-1, none) ∧
    (lafe_line_reader_next (reader_on (fopen []) 0 1 64 100)).map
        (fun r => (r.1, r.2.1)) = some (0, none) :=
  ⟨next_status (reader_on ⟨[97, 10], true, false, false⟩ 0 1 64 100)
      ⟨by decide, Or.inl ⟨rfl, rfl, rfl, rfl, by decide⟩⟩,
    by decide, by decide, by decide, by decide, by decide⟩

/-! ## Properties of the header block -/

/-- C3: the sixteen field widths of `b_header_block` sum to 512, and the
offsets they imply put the checksum at bytes 148..155, the link type at byte
156, the magic at bytes 257..264 and the prefix at bytes 345..499. -/
theorem header_block_layout :
    b_header_block_fields.map (fun fw => fw.2) =
      [100, 8, 8, 8, 12, 12, 8, 1, 100, 8, 32, 32, 8, 8, 155, 12] ∧
    b_header_block_fields.map (fun fw => fw.1) =
      ["suffix", "mode", "uid", "gid", "size", "mtime", "checksum", "linktype", "linkdest",
       "magic", "user", "group", "major", "minor", "prefix", "padding"] ∧
    sizeof_b_header_block = 512 ∧
    field_span "checksum" = some (148, 155 + 1) ∧
    field_span "linktype" = some (156, 156 + 1) ∧
    field_span "magic" = some (257, 264 + 1) ∧
    field_span "prefix" = some (345, 499 + 1) := by
  refine ⟨by decide, by decide, by decide, by decide, by decide, by decide, by decide⟩

theorem octal_digits_eq : ∀ (fuel n : Nat), n ≤ fuel → octal_digits fuel n = Nat.digits 8 n := by
  intro fuel
  induction fuel with
  | zero =>
    intro n h
    have : n = 0 := by omega
    subst this
    simp [octal_digits]
  | succ fuel ih =>
    intro n h
    by_cases hn : n = 0
    · subst hn; simp [octal_digits]
    · have hpos : 0 < n := Nat.pos_of_ne_zero hn
      rw [octal_digits, if_neg hn, Nat.digits_def' (by decide) hpos, ih (n / 8) (by omega)]

theorem printf_octal_eq (fmt : octal_format) (arg : Nat) :
    printf_octal fmt arg =
      List.replicate (fmt.precision - (octal_text (arg % 2 ^ arg_bits fmt)).length) 48 ++
        octal_text (arg % 2 ^ arg_bits fmt) := rfl

theorem octal_text_length (v : Nat) : (octal_text v).length = (Nat.digits 8 v).length := by
  unfold octal_text
  rw [octal_digits_eq v v (Nat.le_refl _)]
  simp

theorem digits_length_le (v k : Nat) (h : v < 8 ^ k) : (Nat.digits 8 v).length ≤ k := by
  by_contra hlt
  have hlen : k + 1 ≤ (Nat.digits 8 v).length := by omega
  have hv : v ≠ 0 := by
    intro h0; subst h0; simp at hlen
  have h1 := Nat.base_pow_length_digits_le 8 v (by decide) hv
  have h2 : 8 ^ (k + 1) ≤ 8 ^ (Nat.digits 8 v).length :=
    Nat.pow_le_pow_right (by decide) hlen
  rw [Nat.pow_succ] at h2
  omega

theorem digits_length_gt (v k : Nat) (h : 8 ^ k ≤ v) : k < (Nat.digits 8 v).length := by
  by_contra hle
  have hlen : (Nat.digits 8 v).length ≤ k := by omega
  have h1 : v < 8 ^ (Nat.digits 8 v).length := Nat.lt_base_pow_length_digits (by decide)
  have h2 : 8 ^ (Nat.digits 8 v).length ≤ 8 ^ k := Nat.pow_le_pow_right (by decide) hlen
  omega

/-- A value below `8 ^ precision` that fits the argument type is written with
exactly `precision` characters. -/
theorem printf_octal_length (fmt : octal_format) (arg : Nat)
    (hfit : arg < 2 ^ arg_bits fmt) (h : arg < 8 ^ fmt.precision) :
    (printf_octal fmt arg).length = fmt.precision := by
  rw [printf_octal_eq, Nat.mod_eq_of_lt hfit, List.length_append, List.length_replicate,
    octal_text_length]
  have := digits_length_le arg fmt.precision h
  omega

/-- A value from `8 ^ precision` up that fits the argument type is written
with more than `precision` characters. -/
theorem printf_octal_long (fmt : octal_format) (arg : Nat)
    (hfit : arg < 2 ^ arg_bits fmt) (h : 8 ^ fmt.precision ≤ arg) :
    fmt.precision < (printf_octal fmt arg).length := by
  rw [printf_octal_eq, Nat.mod_eq_of_lt hfit, List.length_append, List.length_replicate,
    octal_text_length]
  have := digits_length_gt arg fmt.precision h
  omega

theorem octal_value_zeros (k : Nat) (text : List Nat) :
    octal_value (List.replicate k 48 ++ text) = octal_value text := by
  unfold octal_value
  rw [List.foldl_append]
  have : List.foldl (fun acc c => 8 * acc + (c - 48)) 0 (List.replicate k 48) = 0 := by
    induction k with
    | zero => rfl
    | succ k ih => rw [List.replicate_succ, List.foldl_cons]; simpa using ih
  rw [this]

theorem octal_value_text (v : Nat) : octal_value (octal_text v) = v := by
  unfold octal_text octal_value
  rw [octal_digits_eq v v (Nat.le_refl _), List.foldl_map, List.foldl_reverse]
  have : ∀ L : List Nat, List.foldr (fun x y => 8 * y + (x + 48 - 48)) 0 L = Nat.ofDigits 8 L := by
    intro L
    induction L with
    | nil => rfl
    | cons a L ih => rw [List.foldr_cons, ih, Nat.ofDigits_cons]; simp; omega
  rw [this, Nat.ofDigits_digits]

/-- The text written denotes the argument as taken in the width of its type. -/
theorem printf_octal_value (fmt : octal_format) (arg : Nat) :
    octal_value (printf_octal fmt arg) = arg % 2 ^ arg_bits fmt := by
  rw [printf_octal_eq, octal_value_zeros, octal_value_text]

/-- Every character written is an octal digit. -/
theorem printf_octal_digits (fmt : octal_format) (arg : Nat) :
    ∀ c ∈ printf_octal fmt arg, 48 ≤ c ∧ c ≤ 55 := by
  intro c hc
  rw [printf_octal_eq] at hc
  rcases List.mem_append.mp hc with h | h
  · have := List.eq_of_mem_replicate h
    omega
  · unfold octal_text at h
    rw [octal_digits_eq _ _ (Nat.le_refl _)] at h
    obtain ⟨d, hd, hdc⟩ := List.mem_map.mp h
    have := Nat.digits_lt_base (by decide : 1 < 8) (List.mem_reverse.mp hd)
    omega

theorem byte_sum_le (block : List Nat) : byte_sum block ≤ 255 * block.length := by
  unfold byte_sum
  induction block with
  | nil => simp
  | cons b block ih =>
    simp only [List.map_cons, List.sum_cons, List.length_cons]
    have : b % 256 < 256 := Nat.mod_lt _ (by decide)
    omega

theorem byte_sum_append (a b : List Nat) : byte_sum (a ++ b) = byte_sum a + byte_sum b := by
  unfold byte_sum
  simp

/-- The byte sum of a block of 512 bytes whose checksum field holds spaces. -/
theorem blank_sum_le (block : List Nat) (hlen : block.length = 512)
    (hblank : checksum_field block = B_HEADER_EMPTY_CHECKSUM) : byte_sum block ≤ 128776 := by
  have h1 : block = block.take 148 ++ ((block.drop 148).take 8 ++ (block.drop 148).drop 8) := by
    rw [List.take_append_drop, List.take_append_drop]
  have h2 : (block.drop 148).take 8 = B_HEADER_EMPTY_CHECKSUM := hblank
  have h3 : byte_sum B_HEADER_EMPTY_CHECKSUM = 256 := by decide
  have h4 := byte_sum_le (block.take 148)
  have h5 := byte_sum_le ((block.drop 148).drop 8)
  have h6 : (block.take 148).length = 148 := by rw [List.length_take, hlen]; rfl
  have h7 : ((block.drop 148).drop 8).length = 356 := by
    rw [List.length_drop, List.length_drop, hlen]
  rw [h1, byte_sum_append, byte_sum_append, h2, h3]
  omega

/-- C5: in a block of 512 bytes whose checksum field holds
`B_HEADER_EMPTY_CHECKSUM`, the unsigned byte sum is below `8 ^ 6 = 262144`, so
`B_HEADER_CHECKSUM_FORMAT` writes it with exactly six octal digits, which
denote the sum and, followed by a zero byte and a space, fill the
`B_HEADER_CHECKSUM_SIZE = 8` bytes of the field. -/
theorem empty_checksum_sum (block : List Nat) (hlen : block.length = 512)
    (hblank : checksum_field block = B_HEADER_EMPTY_CHECKSUM) :
    byte_sum block < 8 ^ 6 ∧ 8 ^ 6 = 262144 ∧
    (printf_octal B_HEADER_CHECKSUM_FORMAT (byte_sum block)).length = 6 ∧
    (∀ c ∈ printf_octal B_HEADER_CHECKSUM_FORMAT (byte_sum block), 48 ≤ c ∧ c ≤ 55) ∧
    octal_value (printf_octal B_HEADER_CHECKSUM_FORMAT (byte_sum block)) = byte_sum block ∧
    (printf_octal B_HEADER_CHECKSUM_FORMAT (byte_sum block) ++ [0, 0x20]).length =
      B_HEADER_CHECKSUM_SIZE := by
  have hsum := blank_sum_le block hlen hblank
  have hfit : byte_sum block < 2 ^ arg_bits B_HEADER_CHECKSUM_FORMAT := by
    have : (128776 : Nat) < 2 ^ arg_bits B_HEADER_CHECKSUM_FORMAT := by decide
    omega
  have hsix : byte_sum block < 8 ^ B_HEADER_CHECKSUM_FORMAT.precision := by
    have : (128776 : Nat) < 8 ^ B_HEADER_CHECKSUM_FORMAT.precision := by decide
    omega
  have hlen6 := printf_octal_length B_HEADER_CHECKSUM_FORMAT (byte_sum block) hfit hsix
  refine ⟨by omega, by decide, hlen6, printf_octal_digits _ _, ?_, ?_⟩
  · rw [printf_octal_value, Nat.mod_eq_of_lt hfit]
  · rw [List.length_append, hlen6]; rfl

set_option maxRecDepth 8000 in
/-- C5, at the block of 504 bytes `0xff` around a blank checksum field, the
block of the largest sum: 128776, written `373410`. -/
theorem empty_checksum_sum_witness :
    (byte_sum (List.replicate 148 255 ++ B_HEADER_EMPTY_CHECKSUM ++ List.replicate 356 255) < 8 ^ 6 ∧
      8 ^ 6 = 262144 ∧
      (printf_octal B_HEADER_CHECKSUM_FORMAT (byte_sum (List.replicate 148 255 ++ B_HEADER_EMPTY_CHECKSUM ++ List.replicate 356 255))).length = 6 ∧
      (∀ c ∈ printf_octal B_HEADER_CHECKSUM_FORMAT (byte_sum (List.replicate 148 255 ++ B_HEADER_EMPTY_CHECKSUM ++ List.replicate 356 255)), 48 ≤ c ∧ c ≤ 55) ∧
      octal_value (printf_octal B_HEADER_CHECKSUM_FORMAT (byte_sum (List.replicate 148 255 ++ B_HEADER_EMPTY_CHECKSUM ++ List.replicate 356 255))) =
        byte_sum (List.replicate 148 255 ++ B_HEADER_EMPTY_CHECKSUM ++ List.replicate 356 255) ∧
      (printf_octal B_HEADER_CHECKSUM_FORMAT (byte_sum (List.replicate 148 255 ++ B_HEADER_EMPTY_CHECKSUM ++ List.replicate 356 255)) ++ [0, 0x20]).length =
        B_HEADER_CHECKSUM_SIZE) ∧
    printf_octal B_HEADER_CHECKSUM_FORMAT 128776 = [51, 55, 51, 52, 49, 48] :=
  ⟨empty_checksum_sum (List.replicate 148 255 ++ B_HEADER_EMPTY_CHECKSUM ++ List.replicate 356 255)
    (by decide) (by decide), by decide⟩

/-- C6, the failing input: `B_HEADER_SIZE_FORMAT` is `"%.11o"`, a conversion
of an `unsigned int`; the size 4294967296, below `B_HEADER_MAX_USTAR_SIZE`, is
written from its low 32 bits as eleven zeros, which denote 0 and not the
size. -/
theorem size_format_drops_high_bits :
    4294967296 ≤ B_HEADER_MAX_USTAR_SIZE ∧
    B_HEADER_SIZE_FORMAT.long = false ∧
    printf_octal B_HEADER_SIZE_FORMAT 4294967296 =
      [48, 48, 48, 48, 48, 48, 48, 48, 48, 48, 48] ∧
    octal_value (printf_octal B_HEADER_SIZE_FORMAT 4294967296) = 0 ∧
    octal_value (printf_octal B_HEADER_SIZE_FORMAT 4294967296) ≠ 4294967296 := by
  refine ⟨by decide, by decide, by decide, by decide, by decide⟩

/-- What does hold of the size field: `B_HEADER_MAX_USTAR_SIZE` is
`2 ^ 33 - 1 = 8 ^ 11 - 1`; a size that fits the `unsigned int` the format
converts is written with eleven octal digits that denote it and, with a zero
byte, fill the twelve bytes of the field; and were the size converted in 64
bits, every size up to the maximum would be, while 8589934592 would take
twelve digits. -/
theorem size_format_facts :
    B_HEADER_MAX_USTAR_SIZE = 2 ^ 33 - 1 ∧ B_HEADER_MAX_USTAR_SIZE = 8 ^ 11 - 1 ∧
    (∀ size, size < 2 ^ 32 →
      (printf_octal B_HEADER_SIZE_FORMAT size).length = 11 ∧
      octal_value (printf_octal B_HEADER_SIZE_FORMAT size) = size ∧
      (printf_octal B_HEADER_SIZE_FORMAT size ++ [0]).length = B_HEADER_SIZE_SIZE) ∧
    (∀ size, size ≤ B_HEADER_MAX_USTAR_SIZE →
      (printf_octal { precision := 11, long := true } size).length = 11 ∧
      octal_value (printf_octal { precision := 11, long := true } size) = size) ∧
    (printf_octal { precision := 11, long := true } 8589934592).length = 12 := by
  refine ⟨by decide, by decide, ?_, ?_, by decide⟩
  · intro size hsize
    have hfit : size < 2 ^ arg_bits B_HEADER_SIZE_FORMAT := hsize
    have h11 : size < 8 ^ B_HEADER_SIZE_FORMAT.precision := by
      have : (2 : Nat) ^ 32 < 8 ^ B_HEADER_SIZE_FORMAT.precision := by decide
      omega
    have hlen := printf_octal_length B_HEADER_SIZE_FORMAT size hfit h11
    refine ⟨hlen, ?_, ?_⟩
    · rw [printf_octal_value, Nat.mod_eq_of_lt hfit]
    · rw [List.length_append, hlen]; rfl
  · intro size hsize
    have hmax : B_HEADER_MAX_USTAR_SIZE = 8589934591 := rfl
    have hfit : size < 2 ^ arg_bits { precision := 11, long := true } := by
      have : (8589934591 : Nat) < 2 ^ arg_bits { precision := 11, long := true } := by decide
      omega
    have h11 : size < 8 ^ ({ precision := 11, long := true } : octal_format).precision := by
      have : (8589934591 : Nat) < 8 ^ ({ precision := 11, long := true } : octal_format).precision := by
        decide
      omega
    refine ⟨printf_octal_length _ size hfit h11, ?_⟩
    rw [printf_octal_value, Nat.mod_eq_of_lt hfit]

/-- C8 as stated fails: the id 2097152, in the 32-bit range, is written by
`B_HEADER_UID_FORMAT` with eight digits, which with the zero byte do not fit
the eight bytes of the field. -/
theorem id_format_eight_digits :
    2097152 < 2 ^ 32 ∧
    printf_octal B_HEADER_UID_FORMAT 2097152 = [49, 48, 48, 48, 48, 48, 48, 48] ∧
    (printf_octal B_HEADER_UID_FORMAT 2097152).length ≠ 7 ∧
    ¬ (printf_octal B_HEADER_UID_FORMAT 2097152 ++ [0]).length ≤ B_HEADER_UID_SIZE ∧
    (printf_octal B_HEADER_GID_FORMAT 4294967295).length = 11 := by
  refine ⟨by decide, by decide, by decide, by decide, by decide⟩

/-- C8 amended: every uid and gid below `8 ^ 7 = 2097152` is written by
`B_HEADER_UID_FORMAT` and `B_HEADER_GID_FORMAT` with exactly seven octal
digits, which denote the id and, followed by a zero byte, fill the eight
bytes of the uid and gid fields. -/
theorem id_format_seven_digits (id : Nat) (h : id < 8 ^ 7) :
    (printf_octal B_HEADER_UID_FORMAT id).length = 7 ∧
    (∀ c ∈ printf_octal B_HEADER_UID_FORMAT id, 48 ≤ c ∧ c ≤ 55) ∧
    octal_value (printf_octal B_HEADER_UID_FORMAT id) = id ∧
    (printf_octal B_HEADER_UID_FORMAT id ++ [0]).length = B_HEADER_UID_SIZE ∧
    (printf_octal B_HEADER_GID_FORMAT id).length = 7 ∧
    (∀ c ∈ printf_octal B_HEADER_GID_FORMAT id, 48 ≤ c ∧ c ≤ 55) ∧
    octal_value (printf_octal B_HEADER_GID_FORMAT id) = id ∧
    (printf_octal B_HEADER_GID_FORMAT id ++ [0]).length = B_HEADER_GID_SIZE := by
  have hfit : id < 2 ^ arg_bits B_HEADER_UID_FORMAT := by
    have : (8 : Nat) ^ 7 < 2 ^ arg_bits B_HEADER_UID_FORMAT := by decide
    omega
  have h7 : id < 8 ^ B_HEADER_UID_FORMAT.precision := h
  have hlen := printf_octal_length B_HEADER_UID_FORMAT id hfit h7
  have hval : octal_value (printf_octal B_HEADER_UID_FORMAT id) = id := by
    rw [printf_octal_value, Nat.mod_eq_of_lt hfit]
  have hfield : (printf_octal B_HEADER_UID_FORMAT id ++ [0]).length = B_HEADER_UID_SIZE := by
    rw [List.length_append, hlen]; rfl
  exact ⟨hlen, printf_octal_digits _ _, hval, hfield, hlen, printf_octal_digits _ _, hval, hfield⟩

/-- C8 amended, at the largest id of seven digits, 2097151, written
`7777777`. -/
theorem id_format_seven_digits_witness :
    ((printf_octal B_HEADER_UID_FORMAT 2097151).length = 7 ∧
      (∀ c ∈ printf_octal B_HEADER_UID_FORMAT 2097151, 48 ≤ c ∧ c ≤ 55) ∧
      octal_value (printf_octal B_HEADER_UID_FORMAT 2097151) = 2097151 ∧
      (printf_octal B_HEADER_UID_FORMAT 2097151 ++ [0]).length = B_HEADER_UID_SIZE ∧
      (printf_octal B_HEADER_GID_FORMAT 2097151).length = 7 ∧
      (∀ c ∈ printf_octal B_HEADER_GID_FORMAT 2097151, 48 ≤ c ∧ c ≤ 55) ∧
      octal_value (printf_octal B_HEADER_GID_FORMAT 2097151) = 2097151 ∧
      (printf_octal B_HEADER_GID_FORMAT 2097151 ++ [0]).length = B_HEADER_GID_SIZE) ∧
    printf_octal B_HEADER_UID_FORMAT 2097151 = [55, 55, 55, 55, 55, 55, 55] :=
  ⟨id_format_seven_digits 2097151 (by decide), by decide⟩

theorem store_length (m : List Nat) (at_ : Nat) (bytes : List Nat)
    (h : at_ + bytes.length ≤ m.length) : (store m at_ bytes).length = m.length := by
  unfold store
  simp only [List.length_append, List.length_take, List.length_drop]
  omega

theorem store_store (m : List Nat) (at_ : Nat) (a b : List Nat) (hab : a.length = b.length)
    (h : at_ + a.length ≤ m.length) : store (store m at_ a) at_ b = store m at_ b := by
  have h1 : (m.take at_).length = at_ := by rw [List.length_take]; omega
  have e1 : (store m at_ a).take at_ = m.take at_ := by
    unfold store
    rw [List.append_assoc]
    have := take_at_length (m.take at_) (a ++ m.drop (at_ + a.length))
    rw [h1] at this
    exact this
  have e2 : (store m at_ a).drop (at_ + b.length) = m.drop (at_ + b.length) := by
    unfold store
    have := drop_at_length (m.take at_ ++ a) (m.drop (at_ + a.length))
    rw [List.length_append, h1] at this
    rw [← hab, this]
  show (store m at_ a).take at_ ++ b ++ (store m at_ a).drop (at_ + b.length) = _
  rw [e1, e2]
  rfl

theorem field_of_store (m bytes : List Nat) (hb : bytes.length = B_HEADER_CHECKSUM_SIZE)
    (h : 148 + bytes.length ≤ m.length) : checksum_field (store m 148 bytes) = bytes := by
  have h1 : (m.take 148).length = 148 := by rw [List.length_take]; omega
  unfold checksum_field store
  rw [List.append_assoc]
  have := drop_at_length (m.take 148) (bytes ++ m.drop (148 + bytes.length))
  rw [h1] at this
  rw [this, ← hb, take_at_length]

/-- The checksum step makes a block of 512 bytes pass the round trip. -/
theorem checksum_step_round_trip (raw : List Nat) (hlen : raw.length = 512) :
    (checksum_step raw).length = 512 ∧ checksum_round_trip (checksum_step raw) := by
  have hsp : B_HEADER_EMPTY_CHECKSUM.length = 8 := rfl
  have hblen : (store raw 148 B_HEADER_EMPTY_CHECKSUM).length = 512 := by
    rw [store_length _ _ _ (by rw [hsp, hlen]; decide), hlen]
  have hbl : checksum_field (store raw 148 B_HEADER_EMPTY_CHECKSUM) = B_HEADER_EMPTY_CHECKSUM :=
    field_of_store raw _ rfl (by rw [hsp, hlen]; decide)
  have hsum := blank_sum_le _ hblen hbl
  have hfit : byte_sum (store raw 148 B_HEADER_EMPTY_CHECKSUM) <
      2 ^ arg_bits B_HEADER_CHECKSUM_FORMAT := by
    have : (128776 : Nat) < 2 ^ arg_bits B_HEADER_CHECKSUM_FORMAT := by decide
    omega
  have hsix : byte_sum (store raw 148 B_HEADER_EMPTY_CHECKSUM) <
      8 ^ B_HEADER_CHECKSUM_FORMAT.precision := by
    have : (128776 : Nat) < 8 ^ B_HEADER_CHECKSUM_FORMAT.precision := by decide
    omega
  have hcs : (printf_octal B_HEADER_CHECKSUM_FORMAT
      (byte_sum (store raw 148 B_HEADER_EMPTY_CHECKSUM)) ++ [0, 0x20]).length = 8 := by
    rw [List.length_append, printf_octal_length _ _ hfit hsix]; rfl
  have hback : store (checksum_step raw) 148 B_HEADER_EMPTY_CHECKSUM =
      store raw 148 B_HEADER_EMPTY_CHECKSUM := by
    unfold checksum_step
    rw [store_store _ 148 _ B_HEADER_EMPTY_CHECKSUM (by rw [hcs, hsp])
      (by rw [hcs, hblen]; decide)]
    exact store_store raw 148 _ _ rfl (by rw [hsp, hlen]; decide)
  refine ⟨?_, ?_⟩
  · unfold checksum_step
    rw [store_length _ _ _ (by rw [hcs, hblen]; decide), hblen]
  · unfold checksum_round_trip
    rw [hback]
    unfold checksum_step
    exact field_of_store _ _ hcs (by rw [hcs, hblen]; decide)

theorem text_field_length (width : Nat) (s : List Nat) : (text_field width s).length = width := by
  unfold text_field
  simp only [List.length_append, List.length_take, List.length_map, List.length_replicate]
  omega

theorem octal_field_length (width : Nat) (v : Int) (m : List Nat) (hw : 1 ≤ width)
    (h : octal_field width v = .ok m) : m.length = width := by
  unfold octal_field at h
  split at h
  · rename_i hc
    simp only [Except.ok.injEq] at h
    subst h
    rw [List.length_append, printf_octal_length _ _ (by exact hc.2.2) (by exact hc.2.1)]
    simp; omega
  · simp at h

theorem device_field_length (linktype width v : Nat) (m : List Nat) (hw : 1 ≤ width)
    (h : device_field linktype width v = .ok m) : m.length = width := by
  unfold device_field at h
  split at h
  · exact octal_field_length _ _ _ hw h
  · simp only [Except.ok.injEq] at h
    rw [← h]; simp

/-- Every block the encoder produces has 512 bytes and passes the checksum
round trip. -/
theorem encode_block_round_trip (h : b_header) (block : List Nat) (tr : Bool)
    (hok : b_header_encode_block h = .ok (block, tr)) :
    block.length = 512 ∧ checksum_round_trip block := by
  unfold b_header_encode_block at hok
  cases h1 : octal_field B_HEADER_MODE_SIZE h.mode with
  | error e => rw [h1] at hok; simp at hok
  | ok mode =>
  cases h2 : octal_field B_HEADER_UID_SIZE h.uid with
  | error e => rw [h1, h2] at hok; simp at hok
  | ok uid =>
  cases h3 : octal_field B_HEADER_GID_SIZE h.gid with
  | error e => rw [h1, h2, h3] at hok; simp at hok
  | ok gid =>
  cases h4 : octal_field B_HEADER_SIZE_SIZE h.size with
  | error e => rw [h1, h2, h3, h4] at hok; simp at hok
  | ok size =>
  cases h5 : octal_field B_HEADER_MTIME_SIZE h.mtime with
  | error e => rw [h1, h2, h3, h4, h5] at hok; simp at hok
  | ok mtime =>
  cases h6 : device_field h.linktype B_HEADER_MAJOR_SIZE h.major with
  | error e => rw [h1, h2, h3, h4, h5, h6] at hok; simp at hok
  | ok major =>
  cases h7 : device_field h.linktype B_HEADER_MINOR_SIZE h.minor with
  | error e => rw [h1, h2, h3, h4, h5, h6, h7] at hok; simp at hok
  | ok minor =>
    rw [h1, h2, h3, h4, h5, h6, h7] at hok
    simp only [Except.ok.injEq, Prod.mk.injEq] at hok
    obtain ⟨hb, _⟩ := hok
    subst hb
    have l1 := octal_field_length _ _ _ (by decide) h1
    have l2 := octal_field_length _ _ _ (by decide) h2
    have l3 := octal_field_length _ _ _ (by decide) h3
    have l4 := octal_field_length _ _ _ (by decide) h4
    have l5 := octal_field_length _ _ _ (by decide) h5
    have l6 := device_field_length _ _ _ _ (by decide) h6
    have l7 := device_field_length _ _ _ _ (by decide) h7
    apply checksum_step_round_trip
    simp only [List.length_append, text_field_length, List.length_replicate, l1, l2, l3, l4, l5,
      l6, l7, List.length_singleton]
    rfl

/-- C4: every block `b_header_encode_block` produces, and every block
`b_header_encode_longlink_block` produces, has 512 bytes and passes the
checksum round trip: with the checksum field replaced by eight spaces, the
unsigned sum of the 512 bytes is the number whose six-digit zero-padded octal
rendering, followed by a zero byte and a space, is the content of the
checksum field. -/
theorem encoders_checksum_round_trip :
    (∀ (h : b_header) (block : List Nat) (tr : Bool),
      b_header_encode_block h = .ok (block, tr) →
      block.length = 512 ∧ checksum_round_trip block) ∧
    (∀ (path block : List Nat) (tr : Bool),
      b_header_encode_longlink_block path = .ok (block, tr) →
      block.length = 512 ∧ checksum_round_trip block) :=
  ⟨encode_block_round_trip, fun _ block tr hok => encode_block_round_trip _ block tr hok⟩

set_option maxRecDepth 100000 in
/-- C4, at the header of a regular file `a` of 10 bytes, mode 0644, and at the
long-link block of a path of 200 bytes: both encoders produce a block, whose
checksum field reads `006175` and `010007`, zero byte, space. -/
theorem encoders_checksum_round_trip_witness :
    (b_header_encode_block scenario_header =
        .ok ((produced (b_header_encode_block scenario_header)).1,
          (produced (b_header_encode_block scenario_header)).2) ∧
      ((produced (b_header_encode_block scenario_header)).1.length = 512 ∧
        checksum_round_trip (produced (b_header_encode_block scenario_header)).1) ∧
      checksum_field (produced (b_header_encode_block scenario_header)).1 =
        [48, 48, 54, 49, 55, 53, 0, 32]) ∧
    (b_header_encode_longlink_block (List.replicate 200 97) =
        .ok ((produced (b_header_encode_longlink_block (List.replicate 200 97))).1,
          (produced (b_header_encode_longlink_block (List.replicate 200 97))).2) ∧
      ((produced (b_header_encode_longlink_block (List.replicate 200 97))).1.length = 512 ∧
        checksum_round_trip (produced (b_header_encode_longlink_block (List.replicate 200 97))).1) ∧
      checksum_field (produced (b_header_encode_longlink_block (List.replicate 200 97))).1 =
        [48, 49, 48, 48, 48, 55, 0, 32]) :=
  ⟨⟨rfl, encoders_checksum_round_trip.1 scenario_header _ _ rfl, rfl⟩,
    ⟨rfl, encoders_checksum_round_trip.2 (List.replicate 200 97) _ _ rfl, rfl⟩⟩

/-- A name with a valid split has a split point, which is valid. -/
theorem split_point_found (name : List Nat) (i : Nat) (hi : i < name.length)
    (hslash : name.getD i 0 = 47) (hleft : i ≤ B_HEADER_PREFIX_SIZE)
    (hright : name.length - (i + 1) ≤ B_HEADER_SUFFIX_SIZE) :
    ∃ j, split_point name = some j ∧ j < name.length ∧ name.getD j 0 = 47 ∧
      j ≤ B_HEADER_PREFIX_SIZE ∧ name.length - (j + 1) ≤ B_HEADER_SUFFIX_SIZE := by
  cases hsp : split_point name with
  | none =>
    unfold split_point at hsp
    rw [List.find?_eq_none] at hsp
    have := hsp i (by simp; exact hi)
    exact absurd (decide_eq_true ⟨hslash, hleft, hright⟩) this
  | some j =>
    have hp := List.find?_some hsp
    have hm := List.mem_of_find?_eq_some hsp
    simp only [decide_eq_true_eq] at hp
    simp only [List.mem_reverse, List.mem_range] at hm
    exact ⟨j, rfl, hm, hp.1, hp.2.1, hp.2.2⟩

theorem take_slash_drop (name : List Nat) (j : Nat) (hj : j < name.length)
    (hslash : name.getD j 0 = 47) : name.take j ++ [47] ++ name.drop (j + 1) = name := by
  have h1 : name.getD j 0 = name[j] := List.getD_eq_getElem name 0 hj
  have h2 : name.drop j = name[j] :: name.drop (j + 1) := List.drop_eq_getElem_cons hj
  rw [← hslash, h1]
  calc name.take j ++ [name[j]] ++ name.drop (j + 1)
      = name.take j ++ (name[j] :: name.drop (j + 1)) := by simp
    _ = name.take j ++ name.drop j := by rw [h2]
    _ = name := List.take_append_drop j name

/-- C7: for every member name of 101 to 255 bytes that holds a `/` with at
most `B_HEADER_PREFIX_SIZE = 155` bytes on its left and at most
`B_HEADER_SUFFIX_SIZE = 100` on its right, and every entry the function
accepts (a kind with a type tag, a size within `B_HEADER_MAX_USTAR_SIZE`),
`b_header_for_file` produces a header that is not marked as requiring a
long-link precursor, whose prefix, a `/` and whose suffix make the member
name, the prefix of at most 155 bytes and the suffix of at most 100. -/
theorem for_file_splits_name (path name : List Nat) (st : b_stat) (i : Nat)
    (hmin : 101 ≤ name.length) (hmax : name.length ≤ 255)
    (hi : i < name.length) (hslash : name.getD i 0 = 47)
    (hleft : i ≤ B_HEADER_PREFIX_SIZE)
    (hright : name.length - (i + 1) ≤ B_HEADER_SUFFIX_SIZE)
    (hkind : st.kind ≠ .other)
    (hsize : st.kind = .regular → st.size ≤ B_HEADER_MAX_USTAR_SIZE) :
    ∃ h, b_header_for_file path name st = .ok (h, false) ∧
      h.prefix_ ++ [47] ++ h.suffix = name ∧
      h.prefix_.length ≤ 155 ∧ h.suffix.length ≤ 100 := by
  obtain ⟨j, hsp, hj, hjs, hjl, hjr⟩ := split_point_found name i hi hslash hleft hright
  have htag : ∃ tag, type_tag st.kind = .ok tag := by
    cases hk : st.kind with
    | other => exact absurd hk hkind
    | regular => exact ⟨_, rfl⟩
    | directory => exact ⟨_, rfl⟩
    | symlink => exact ⟨_, rfl⟩
    | chardev => exact ⟨_, rfl⟩
    | blockdev => exact ⟨_, rfl⟩
    | fifo => exact ⟨_, rfl⟩
  obtain ⟨tag, htag⟩ := htag
  have hnot : ¬ B_HEADER_MAX_USTAR_SIZE < (if st.kind = .regular then st.size else 0) := by
    split
    · rename_i hreg; have := hsize hreg; omega
    · omega
  have hlong : ¬ name.length ≤ B_HEADER_SUFFIX_SIZE := by
    have : B_HEADER_SUFFIX_SIZE = 100 := rfl
    omega
  have hpre : (name.take j).length ≤ 155 := by
    rw [List.length_take]
    have : B_HEADER_PREFIX_SIZE = 155 := rfl
    omega
  have hsuf : (name.drop (j + 1)).length ≤ 100 := by
    rw [List.length_drop]
    have : B_HEADER_SUFFIX_SIZE = 100 := rfl
    omega
  cases hres : b_header_for_file path name st with
  | error e =>
    unfold b_header_for_file at hres
    rw [htag] at hres
    simp only [if_neg hnot, if_neg hlong, hsp] at hres
    exact absurd hres (by simp)
  | ok r =>
    unfold b_header_for_file at hres
    rw [htag] at hres
    simp only [if_neg hnot, if_neg hlong, hsp, Except.ok.injEq] at hres
    subst hres
    exact ⟨_, rfl, take_slash_drop name j hj hjs, hpre, hsuf⟩

set_option maxRecDepth 100000 in
/-- C7, at a regular file whose member name is 150 bytes `a`, a `/` and 50
bytes `b`: the header holds the 150 bytes as prefix and the 50 as suffix. -/
theorem for_file_splits_name_witness :
    (∃ h, b_header_for_file [] (List.replicate 150 97 ++ [47] ++ List.replicate 50 98)
        { kind := .regular, mode := 0o100644, uid := 1000, gid := 1000, size := 10, mtime := 0, linkdest := [], major := 0, minor := 0 } = .ok (h, false) ∧
      h.prefix_ ++ [47] ++ h.suffix = List.replicate 150 97 ++ [47] ++ List.replicate 50 98 ∧
      h.prefix_.length ≤ 155 ∧ h.suffix.length ≤ 100) ∧
    split_point (List.replicate 150 97 ++ [47] ++ List.replicate 50 98) = some 150 :=
  ⟨for_file_splits_name [] (List.replicate 150 97 ++ [47] ++ List.replicate 50 98)
      { kind := .regular, mode := 0o100644, uid := 1000, gid := 1000, size := 10, mtime := 0, linkdest := [], major := 0, minor := 0 }
      150 (by decide) (by decide) (by decide) (by decide) (by decide) (by decide) (by decide)
      (by decide),
    by decide⟩

/-! ## Further properties of the line reader -/

/-- C13: in newline mode, on any content, zero bytes included, the successive
calls of `lafe_line_reader_next` return, up to the call that gives status 0
and `NULL`, the non-empty pieces of the content split at every CR, every LF
and every zero byte: a zero byte ends a line as CR and LF do. -/
theorem newline_mode_zero_ends_line (content pathname : List Nat)
    (L bits heap junk calls : Nat) (lr0 : struct_lafe_line_reader)
    (hopen : lafe_line_reader pathname (some (fopen content)) 0 bits heap junk = some lr0)
    (hL : 0 < L) (hword : 2 * (L + content.length) + 1 < 2 ^ bits)
    (hmem : 2 * (L + content.length) + 1 ≤ heap) (hcalls : content.length < calls) :
    ∃ lr', read_lines calls { lr0 with buff_length := L } =
        some (crlf_nul_pieces content, 0, lr') ∧ lr'.f = none := by
  obtain ⟨lr', hrun, hf⟩ :=
    fresh_reader_lines content pathname 0 L bits heap junk calls lr0 hopen hL hword hmem hcalls
  refine ⟨lr', ?_, hf⟩
  rw [hrun, scan_newline content.length content (Nat.le_refl _)]
  unfold crlf_nul_pieces
  rw [splitOnP_agree (is_eol 0) (fun c => decide (c = 13 ∨ c = 10 ∨ c = 0)) content]
  intro c _
  unfold is_eol
  by_cases h0 : c = 0 <;> by_cases h13 : c = 13 <;> by_cases h10 : c = 10 <;> simp [h0, h13, h10]

/-- C13, at the content `'a' 0 'b' LF 0 CR 'c'` read through a buffer that
starts with length 1. -/
theorem newline_mode_zero_ends_line_witness :
    (∃ lr', read_lines 8 { f := some (fopen [97, 0, 98, 10, 0, 13, 99]), buff := [], buff_end := 0, line_start := 0, line_end := 0, p := 0, pathname := [45], buff_length := 1, nullSeparator := 0, ret := 0, size_bits := 64, heap_avail := 100, junk := 255 } =
        some (crlf_nul_pieces [97, 0, 98, 10, 0, 13, 99], 0, lr') ∧ lr'.f = none) ∧
    crlf_nul_pieces [97, 0, 98, 10, 0, 13, 99] = [[97], [98], [99]] :=
  ⟨newline_mode_zero_ends_line [97, 0, 98, 10, 0, 13, 99] [45] 1 64 100 255 8 _ rfl (by decide)
    (by decide) (by decide) (by decide), by decide⟩

/-- The lines a newline-mode scan finds are not empty and hold no line end. -/
theorem scan_lines_clean : ∀ (T acc : List Nat), (∀ c ∈ acc, is_eol 0 c = false) →
    ∀ l ∈ scan_lines 0 acc T, l ≠ [] ∧ ∀ c ∈ l, is_eol 0 c = false := by
  intro T
  induction T with
  | nil =>
    intro acc hacc l hl
    unfold scan_lines last_line at hl
    split at hl
    · simp at hl
    · rename_i hne
      simp only [List.mem_singleton] at hl
      subst hl
      exact ⟨hne, hacc⟩
  | cons a T ih =>
    intro acc hacc l hl
    rw [scan_lines] at hl
    split at hl
    · rcases List.mem_append.mp hl with h | h
      · unfold emit_line at h
        split at h
        · rename_i hne
          simp only [List.mem_singleton] at h
          subst h
          rcases hne with h0 | h0
          · exact absurd rfl h0
          · exact ⟨h0, hacc⟩
        · simp at h
      · exact ih [] (by simp) l h
    · rename_i hna
      apply ih (acc ++ [a]) _ l hl
      intro c hc
      rcases List.mem_append.mp hc with h | h
      · exact hacc c h
      · simp only [List.mem_singleton] at h
        subst h
        simpa using hna

/-- Writing CR LF for LF does not change what a newline-mode scan finds. -/
theorem scan_lf_to_crlf : ∀ (T acc : List Nat),
    scan_lines 0 acc (lf_to_crlf T) = scan_lines 0 acc T := by
  intro T
  induction T with
  | nil => intro acc; rfl
  | cons a T ih =>
    intro acc
    by_cases ha : a = 10
    · subst ha
      have h13 : is_eol 0 13 = true := by decide
      have h10 : is_eol 0 10 = true := by decide
      have hemp : emit_line 0 [] = [] := by decide
      rw [lf_to_crlf, if_pos rfl, scan_lines, h13, if_pos rfl, scan_lines, h10, if_pos rfl,
        hemp, List.nil_append, ih []]
      rw [scan_lines, h10, if_pos rfl]
    · rw [lf_to_crlf, if_neg ha, scan_lines, scan_lines, ih, ih]

theorem lf_to_crlf_length (T : List Nat) : (lf_to_crlf T).length ≤ 2 * T.length := by
  induction T with
  | nil => simp [lf_to_crlf]
  | cons a T ih =>
    rw [lf_to_crlf]
    split
    · simp only [List.length_cons]; omega
    · simp only [List.length_cons]; omega

theorem not_eol_newline (c : Nat) (h : is_eol 0 c = false) : c ≠ 0 ∧ c ≠ 13 ∧ c ≠ 10 := by
  unfold is_eol at h
  simp at h
  omega

/-- C12: in newline mode no line the calls return is empty and none holds a
CR or an LF (or a zero byte); and the lines returned for a content are the
lines returned for the same content with CR LF written for every LF, for
every content, those without CR and zero bytes among them. -/
theorem crlf_same_lines (content pathname : List Nat)
    (L bits heap junk calls : Nat) (lr0 lr1 : struct_lafe_line_reader)
    (hopen0 : lafe_line_reader pathname (some (fopen content)) 0 bits heap junk = some lr0)
    (hopen1 : lafe_line_reader pathname (some (fopen (lf_to_crlf content))) 0 bits heap junk =
      some lr1)
    (hL : 0 < L) (hword : 2 * (L + 2 * content.length) + 1 < 2 ^ bits)
    (hmem : 2 * (L + 2 * content.length) + 1 ≤ heap) (hcalls : 2 * content.length < calls) :
    ∃ lines lr0' lr1',
      read_lines calls { lr0 with buff_length := L } = some (lines, 0, lr0') ∧
      read_lines calls { lr1 with buff_length := L } = some (lines, 0, lr1') ∧
      ∀ l ∈ lines, l ≠ [] ∧ ∀ c ∈ l, c ≠ 13 ∧ c ≠ 10 ∧ c ≠ 0 := by
  have hlen := lf_to_crlf_length content
  obtain ⟨lr0', hrun0, _⟩ :=
    fresh_reader_lines content pathname 0 L bits heap junk calls lr0 hopen0 hL
      (by omega) (by omega) (by omega)
  obtain ⟨lr1', hrun1, _⟩ :=
    fresh_reader_lines (lf_to_crlf content) pathname 0 L bits heap junk calls lr1 hopen1 hL
      (by omega) (by omega) (by omega)
  rw [scan_lf_to_crlf] at hrun1
  refine ⟨_, lr0', lr1', hrun0, hrun1, ?_⟩
  intro l hl
  obtain ⟨hne, hcl⟩ := scan_lines_clean content [] (by simp) l hl
  refine ⟨hne, ?_⟩
  intro c hc
  obtain ⟨h0, h13, h10⟩ := not_eol_newline c (hcl c hc)
  exact ⟨h13, h10, h0⟩

/-- C12, at the content `'a' LF LF 'b' 'c' LF 'd'`, read as it is and with
CR LF for every LF, through a buffer that starts with length 1. -/
theorem crlf_same_lines_witness :
    (∃ lines lr0' lr1',
      read_lines 15 { f := some (fopen [97, 10, 10, 98, 99, 10, 100]), buff := [], buff_end := 0, line_start := 0, line_end := 0, p := 0, pathname := [45], buff_length := 1, nullSeparator := 0, ret := 0, size_bits := 64, heap_avail := 100, junk := 255 } = some (lines, 0, lr0') ∧
      read_lines 15 { f := some (fopen (lf_to_crlf [97, 10, 10, 98, 99, 10, 100])), buff := [], buff_end := 0, line_start := 0, line_end := 0, p := 0, pathname := [45], buff_length := 1, nullSeparator := 0, ret := 0, size_bits := 64, heap_avail := 100, junk := 255 } = some (lines, 0, lr1') ∧
      ∀ l ∈ lines, l ≠ [] ∧ ∀ c ∈ l, c ≠ 13 ∧ c ≠ 10 ∧ c ≠ 0) ∧
    lf_to_crlf [97, 10, 10, 98, 99, 10, 100] = [97, 13, 10, 13, 10, 98, 99, 13, 10, 100] ∧
    (read_lines 15 (reader_on (fopen [97, 13, 10, 13, 10, 98, 99, 13, 10, 100]) 0 1 64 100)).map
      (fun r => (r.1, r.2.1)) = some ([[97], [98, 99], [100]], 0) ∧
    (read_lines 15 (reader_on (fopen [97, 10, 10, 98, 99, 10, 100]) 0 1 64 100)).map
      (fun r => (r.1, r.2.1)) = some ([[97], [98, 99], [100]], 0) :=
  ⟨crlf_same_lines [97, 10, 10, 98, 99, 10, 100] [45] 1 64 100 255 15 _ _ rfl rfl (by decide)
    (by decide) (by decide) (by decide), by decide, by decide, by decide⟩

/-- A reader at its end of input stays there: the call returns status 0 and
`NULL` and changes nothing. -/
theorem at_end_fixed (lr : struct_lafe_line_reader) (hf : lr.f = none)
    (hs : lr.line_start = lr.buff_end) (he : ¬ lr.line_end < lr.buff_end) :
    lafe_line_reader_next lr = some (0, none, lr) := by
  have hfuel : next_fuel lr = 0 + 1 := by unfold next_fuel; rw [hf]
  unfold lafe_line_reader_next
  rw [hfuel, next_loop, next_while, if_neg he]
  simp only [hf, if_pos hs]

/-- When the inner loop ends without returning, no line end is left in the
buffer. -/
theorem while_exit : ∀ (fuel : Nat) (lr lr1 : struct_lafe_line_reader),
    next_while fuel lr = some (none, lr1) → ¬ lr1.line_end < lr1.buff_end := by
  intro fuel
  induction fuel with
  | zero => intro lr lr1 h; simp [next_while] at h
  | succ fuel ih =>
    intro lr lr1 h
    rw [next_while] at h
    split at h
    · simp only at h
      split at h
      · simp at h
      · exact ih _ _ h
    · simp only [Option.some.injEq, Prod.mk.injEq, true_and] at h
      subst h
      assumption

/-- A call that returns status 0 and `NULL` leaves the stream closed and the
buffer used up. -/
theorem loop_null : ∀ (fuel : Nat) (lr lr' : struct_lafe_line_reader),
    next_loop fuel lr = some (0, none, lr') →
    lr'.f = none ∧ lr'.line_start = lr'.buff_end ∧ ¬ lr'.line_end < lr'.buff_end := by
  intro fuel
  induction fuel with
  | zero => intro lr lr' h; simp [next_loop] at h
  | succ fuel ih =>
    intro lr lr' h
    rw [next_loop] at h
    cases hw : next_while (lr.buff_end - lr.line_end + 1) lr with
    | none => rw [hw] at h; simp at h
    | some r =>
      obtain ⟨q1, lr1⟩ := r
      cases q1 with
      | some q => rw [hw] at h; simp at h
      | none =>
        have hexit := while_exit _ _ _ hw
        rw [hw] at h
        simp only at h
        cases hf : lr1.f with
        | none =>
          rw [hf] at h
          simp only at h
          split at h
          · rename_i heq
            simp only [Option.some.injEq, Prod.mk.injEq, true_and] at h
            subst h
            exact ⟨hf, heq, hexit⟩
          · simp at h
        | some f =>
          rw [hf] at h
          simp only at h
          cases hr : next_refill lr1 f with
          | mk ok lr3 =>
            rw [hr] at h
            cases ok with
            | false => simp at h
            | true => exact ih _ _ h

/-- C14: the end of input is sticky. Once `lafe_line_reader_next` has
returned status 0 with `NULL`, the next call and every call after it return
status 0 with `NULL` and leave the reader as it is, field for field. And when
the stream is closed and the buffer holds a last unterminated line, the call
returns that line and the call after it returns `NULL`: the line is not
returned a second time. -/
theorem end_of_input_sticky :
    (∀ (lr lr' : struct_lafe_line_reader),
      lafe_line_reader_next lr = some (0, none, lr') →
      lafe_line_reader_next lr' = some (0, none, lr') ∧
      ∀ k, call_again k lr' = some (0, none, lr')) ∧
    (∀ (lr : struct_lafe_line_reader),
      lr.f = none → ¬ lr.line_end < lr.buff_end → lr.line_start ≠ lr.buff_end →
      lafe_line_reader_next lr =
        some (0, some lr.line_start, { lr with line_start := lr.buff_end }) ∧
      lafe_line_reader_next { lr with line_start := lr.buff_end } =
        some (0, none, { lr with line_start := lr.buff_end })) := by
  constructor
  · intro lr lr' h
    obtain ⟨hf, hs, he⟩ := loop_null _ _ _ h
    have hfix := at_end_fixed lr' hf hs he
    refine ⟨hfix, ?_⟩
    intro k
    induction k with
    | zero => exact hfix
    | succ k ih => rw [call_again, hfix]; exact ih
  · intro lr hf he hne
    constructor
    · have hfuel : next_fuel lr = 0 + 1 := by unfold next_fuel; rw [hf]
      unfold lafe_line_reader_next
      rw [hfuel, next_loop, next_while, if_neg he]
      simp only [hf, if_neg hne]
    · exact at_end_fixed _ hf rfl he

/-- C14, at the reader on an empty file, whose first call returns `NULL`,
and at the reader the first call on the content `'a' LF 'b'` leaves: the
stream closed, `b` in the buffer as the last unterminated line. -/
theorem end_of_input_sticky_witness :
    (lafe_line_reader_next { f := none, buff := [0, 255, 255, 255, 255], buff_end := 0, line_start := 0, line_end := 0, p := 0, pathname := [45], buff_length := 4, nullSeparator := 0, ret := 0, size_bits := 64, heap_avail := 100, junk := 255 } =
        some (0, none, { f := none, buff := [0, 255, 255, 255, 255], buff_end := 0, line_start := 0, line_end := 0, p := 0, pathname := [45], buff_length := 4, nullSeparator := 0, ret := 0, size_bits := 64, heap_avail := 100, junk := 255 }) ∧
      ∀ k, call_again k { f := none, buff := [0, 255, 255, 255, 255], buff_end := 0, line_start := 0, line_end := 0, p := 0, pathname := [45], buff_length := 4, nullSeparator := 0, ret := 0, size_bits := 64, heap_avail := 100, junk := 255 } =
        some (0, none, { f := none, buff := [0, 255, 255, 255, 255], buff_end := 0, line_start := 0, line_end := 0, p := 0, pathname := [45], buff_length := 4, nullSeparator := 0, ret := 0, size_bits := 64, heap_avail := 100, junk := 255 })) ∧
    (lafe_line_reader_next { f := none, buff := [97, 0, 98, 0, 255], buff_end := 3, line_start := 2, line_end := 3, p := 0, pathname := [45], buff_length := 4, nullSeparator := 0, ret := 0, size_bits := 64, heap_avail := 100, junk := 255 } =
        some (0, some 2, { f := none, buff := [97, 0, 98, 0, 255], buff_end := 3, line_start := 3, line_end := 3, p := 0, pathname := [45], buff_length := 4, nullSeparator := 0, ret := 0, size_bits := 64, heap_avail := 100, junk := 255 }) ∧
      lafe_line_reader_next { f := none, buff := [97, 0, 98, 0, 255], buff_end := 3, line_start := 3, line_end := 3, p := 0, pathname := [45], buff_length := 4, nullSeparator := 0, ret := 0, size_bits := 64, heap_avail := 100, junk := 255 } =
        some (0, none, { f := none, buff := [97, 0, 98, 0, 255], buff_end := 3, line_start := 3, line_end := 3, p := 0, pathname := [45], buff_length := 4, nullSeparator := 0, ret := 0, size_bits := 64, heap_avail := 100, junk := 255 })) ∧
    lafe_line_reader_next (reader_on (fopen []) 0 2 64 100) =
      some (0, none, { f := none, buff := [0, 255, 255, 255, 255], buff_end := 0, line_start := 0, line_end := 0, p := 0, pathname := [45], buff_length := 4, nullSeparator := 0, ret := 0, size_bits := 64, heap_avail := 100, junk := 255 }) ∧
    lafe_line_reader_next (reader_on (fopen [97, 10, 98]) 0 2 64 100) =
      some (0, some 0, { f := none, buff := [97, 0, 98, 0, 255], buff_end := 3, line_start := 2, line_end := 3, p := 0, pathname := [45], buff_length := 4, nullSeparator := 0, ret := 0, size_bits := 64, heap_avail := 100, junk := 255 }) :=
  ⟨end_of_input_sticky.1 (reader_on (fopen []) 0 2 64 100) { f := none, buff := [0, 255, 255, 255, 255], buff_end := 0, line_start := 0, line_end := 0, p := 0, pathname := [45], buff_length := 4, nullSeparator := 0, ret := 0, size_bits := 64, heap_avail := 100, junk := 255 } (by decide),
    end_of_input_sticky.2 { f := none, buff := [97, 0, 98, 0, 255], buff_end := 3, line_start := 2, line_end := 3, p := 0, pathname := [45], buff_length := 4, nullSeparator := 0, ret := 0, size_bits := 64, heap_avail := 100, junk := 255 } rfl (by decide) (by decide),
    by decide, by decide⟩

/-! ## The pointers and the bytes allocated -/

/-- When the line end is known to lie in the buffer, `strcspn` and the write
of the terminator stay inside it. -/
theorem find_eol_inside_at (lr : struct_lafe_line_reader) (P l : List Nat) (t : Nat)
    (Q : List Nat) (hb : lr.buff = P ++ l ++ t :: Q) (he : lr.line_end = P.length)
    (hl : ∀ c ∈ l, is_eol lr.nullSeparator c = false) (ht : is_eol lr.nullSeparator t = true) :
    find_eol_inside lr = true := by
  have h1 : lr.buff.drop P.length = l ++ t :: Q := by
    rw [hb, List.append_assoc, drop_at_length]
  have h2 : strcspn (l ++ t :: Q) (if lr.nullSeparator ≠ 0 then [] else [0x0d, 0x0a]) = l.length :=
    strcspn_first lr.nullSeparator l t Q hl ht
  unfold find_eol_inside
  simp only [he, h1, h2]
  rw [hb]
  simp

/-- The inner loop on a well-shaped buffer touches no byte outside it. -/
theorem while_inside_shape : ∀ (fuel : Nat) (lr : struct_lafe_line_reader) (A l R G : List Nat),
    Shape lr A l R G → R.length < fuel → while_inside fuel lr = true := by
  intro fuel
  induction fuel with
  | zero => intro lr A l R G _ h; omega
  | succ fuel ih =>
    intro lr A l R G sh hfuel
    rcases sh.rest with hR | ⟨R1, hR⟩
    · subst hR
      have hlt : ¬ lr.line_end < lr.buff_end := by
        rw [sh.stop, sh.fin]; simp
      rw [while_inside, if_neg hlt]
    · subst hR
      have hlt : lr.line_end < lr.buff_end := by
        rw [sh.stop, sh.fin]; simp
      obtain ⟨l2, t, Q, R', hsplit, hl2, ht, hR', hbuf, hlen, _⟩ :=
        rest_split lr.nullSeparator R1 G
      have hb1 : lr.buff = (A ++ l ++ [0]) ++ l2 ++ t :: Q := by
        rw [sh.buff]; simp [← hsplit]
      have hfe := find_eol_at
        { lr with line_end := lr.line_end + 1, line_start := lr.line_end + 1 }
        (A ++ l ++ [0]) l2 t Q hb1 (by simp [sh.stop]; omega) hl2 ht
      have hin := find_eol_inside_at
        { lr with line_end := lr.line_end + 1, line_start := lr.line_end + 1 }
        (A ++ l ++ [0]) l2 t Q hb1 (by simp [sh.stop]; omega) hl2 ht
      have hsh2 : Shape
          { lr with buff := (A ++ l ++ [0]) ++ l2 ++ 0 :: Q, line_start := lr.line_end + 1, line_end := (A ++ l ++ [0]).length + l2.length }
          (A ++ l ++ [0]) l2 R' G := by
        refine ⟨?_, ?_, ?_, ?_, ?_, hl2, hR'⟩
        · show (A ++ l ++ [0]) ++ l2 ++ 0 :: Q = (A ++ l ++ [0]) ++ l2 ++ R' ++ 0 :: G
          rw [List.append_assoc (A ++ l ++ [0]) l2, hbuf]; simp
        · show lr.line_end + 1 = _
          rw [sh.stop]; simp; omega
        · rfl
        · show lr.buff_end = _
          rw [sh.fin]; simp; omega
        · show ((A ++ l ++ [0]) ++ l2 ++ 0 :: Q).length = lr.buff_length + 1
          rw [← sh.size, hb1]; simp
      have hstart : lr.line_start < lr.buff.length := by
        rw [sh.start, sh.buff]; simp
      have hfuel2 : R'.length < fuel := by
        simp at hfuel; omega
      have hrec := ih _ _ _ _ _ hsh2 hfuel2
      rw [while_inside, if_pos hlt]
      simp only [hfe, hin, hstart, decide_True, Bool.and_self, Bool.true_and]
      split
      · rfl
      · exact hrec

/-- The inner loop from any state between two calls touches no byte outside
the buffer. -/
theorem while_inside_sound (lr : struct_lafe_line_reader) (hs : Sound lr) :
    while_inside (lr.buff_end - lr.line_end + 1) lr = true := by
  rcases hs.2 with hf | ⟨A, l, R, G, sh⟩ | ⟨l, G, st⟩
  · have hlt : ¬ lr.line_end < lr.buff_end := by rw [hf.stop, hf.fin]; simp
    rw [while_inside, if_neg hlt]
  · have hfuel : R.length < lr.buff_end - lr.line_end + 1 := by
      rw [sh.fin, sh.stop]; omega
    exact while_inside_shape _ lr A l R G sh hfuel
  · have hlt : ¬ lr.line_end < lr.buff_end := by rw [st.stop, st.fin]; simp
    rw [while_inside, if_neg hlt]

/-- The first half of a refill, when it does not end the call, leaves a
buffer with room behind the fractional line. -/
theorem make_room_roomy (lr lr2 : struct_lafe_line_reader) (l : List Nat) (h : Hungry lr l)
    (hmr : next_make_room lr = (true, lr2)) : ∃ X, Roomy lr2 l X := by
  by_cases hls : 0 < lr.line_start
  · rcases h with ⟨hfr, _⟩ | ⟨A, G, sh⟩ | ⟨G, st⟩
    · have := hfr.start; omega
    · obtain ⟨X, hmr2, hroomy⟩ := make_room_move lr A l G sh hls
      rw [hmr2] at hmr
      have e := (Prod.mk.inj hmr).2
      rw [← e]; exact ⟨X, hroomy⟩
    · have := st.start; omega
  · have hzero : lr.line_start = 0 := by omega
    have hnpos : ¬ lr.line_start > 0 := by omega
    by_cases hwrap : lr.buff_length < (lr.buff_length * 2) % 2 ^ lr.size_bits
    · by_cases hmem : (lr.buff_length * 2) % 2 ^ lr.size_bits + 1 ≤ lr.heap_avail
      · obtain ⟨X, hmr2, hroomy⟩ := make_room_grow lr l h hzero hwrap hmem
        rw [hmr2] at hmr
        have e := (Prod.mk.inj hmr).2
        rw [← e]; exact ⟨X, hroomy⟩
      · have hnle : ¬ (lr.buff_length * 2) % 2 ^ lr.size_bits ≤ lr.buff_length := by omega
        have hsucc := double_mod_succ lr.buff_length lr.size_bits hwrap
        have hmr2 : next_make_room lr =
            (false, { lr with buff_length := (lr.buff_length * 2) % 2 ^ lr.size_bits }) := by
          unfold next_make_room
          rw [if_neg hnpos]
          simp only [if_neg hnle, hsucc, realloc, if_neg hmem]
        rw [hmr2] at hmr
        exact absurd (Prod.mk.inj hmr).1 (by simp)
    · have hle : (lr.buff_length * 2) % 2 ^ lr.size_bits ≤ lr.buff_length := by omega
      have hmr2 : next_make_room lr = (false, lr) := by
        unfold next_make_room
        rw [if_neg hnpos]
        simp only [if_pos hle]
      rw [hmr2] at hmr
      exact absurd (Prod.mk.inj hmr).1 (by simp)

/-- The `memmove` of a refill reads and writes inside the buffer. -/
theorem make_room_inside_hungry (lr : struct_lafe_line_reader) (l : List Nat)
    (h : Hungry lr l) : make_room_inside lr = true := by
  unfold make_room_inside
  by_cases hls : lr.line_start > 0
  · rw [if_pos hls]
    rcases h with ⟨hfr, _⟩ | ⟨A, G, sh⟩ | ⟨G, st⟩
    · have := hfr.start; omega
    · have h1 : lr.line_start ≤ lr.buff_end := by rw [sh.start, sh.fin]; omega
      have h2 : lr.buff_end ≤ lr.buff.length := by rw [sh.fin, sh.buff]; simp
      simp [h1, h2]
    · have := st.start; omega
  · rw [if_neg hls]

/-- The `fread` of a refill, the terminator behind the bytes read and the
search for the line end stay inside a buffer with room. -/
theorem fill_inside_roomy (lr : struct_lafe_line_reader) (l X : List Nat) (f : FILE)
    (hr : Roomy lr l X) : fill_inside lr f = true := by
  generalize hbytes : (fread (lr.buff_length - lr.buff_end) f).1 = bytes
  generalize hf2 : (fread (lr.buff_length - lr.buff_end) f).2 = f2
  have hk : bytes.length ≤ lr.buff_length - l.length := by
    rw [← hbytes, ← hr.fin]; exact fread_length _ _
  have hX : l.length + X.length = lr.buff_length + 1 := by
    rw [← hr.size, hr.buff]; simp
  have hdrop : ∃ x G', X.drop bytes.length = x :: G' := by
    have : 0 < (X.drop bytes.length).length := by
      rw [List.length_drop]; have := hr.room; omega
    cases hd : X.drop bytes.length with
    | nil => rw [hd] at this; simp at this
    | cons x G' => exact ⟨x, G', rfl⟩
  obtain ⟨x, G', hG⟩ := hdrop
  have hstore : store lr.buff lr.buff_end bytes = (l ++ bytes) ++ x :: G' := by
    unfold store
    rw [hr.fin, hr.buff, take_at_length]
    have : (l ++ X).drop (l.length + bytes.length) = X.drop bytes.length := by
      rw [← List.drop_drop, drop_at_length]
    rw [this, hG]
  have hset : ((l ++ bytes) ++ x :: G').set (lr.buff_end + bytes.length) 0 =
      l ++ (bytes ++ 0 :: G') := by
    rw [hr.fin]
    simp
  obtain ⟨l2, t, Q, R', hsplit, hl2, ht, _, _, _, _⟩ :=
    rest_split lr.nullSeparator bytes G'
  have hin := find_eol_inside_at
    { lr with f := some f2, buff := l ++ (bytes ++ 0 :: G'), buff_end := lr.buff_end + bytes.length }
    l l2 t Q (by show l ++ (bytes ++ 0 :: G') = l ++ l2 ++ t :: Q; rw [hsplit]; simp)
    hr.stop hl2 ht
  have h1 : lr.buff_end ≤ lr.buff_length := by rw [hr.fin]; have := hr.room; omega
  have h2 : lr.buff_length + 1 ≤ lr.buff.length := by rw [hr.size]
  unfold fill_inside fill_stored
  simp only [hbytes, hf2, hstore, hset, hin, h1, h2, and_self, decide_True, Bool.and_self]

/-- A refill from any state that goes for one touches no byte outside the
buffer. -/
theorem refill_inside_hungry (lr : struct_lafe_line_reader) (l : List Nat) (f : FILE)
    (h : Hungry lr l) : refill_inside lr f = true := by
  have hmi := make_room_inside_hungry lr l h
  unfold refill_inside
  cases hmr : next_make_room lr with
  | mk ok lr2 =>
    cases ok with
    | false => exact hmi
    | true =>
      obtain ⟨X, hr⟩ := make_room_roomy lr lr2 l h hmr
      show (make_room_inside lr && fill_inside lr2 f) = true
      rw [hmi, fill_inside_roomy lr2 l X f hr]
      rfl

/-- One call from any state between two calls touches no byte outside the
buffer. -/
theorem next_inside_sound : ∀ (fuel : Nat) (lr : struct_lafe_line_reader),
    Sound lr → next_fuel lr ≤ fuel → next_inside fuel lr = true := by
  intro fuel
  induction fuel with
  | zero =>
    intro lr _ h
    have := next_fuel_pos lr
    omega
  | succ fuel ih =>
    intro lr hs hfuel
    have hw := while_inside_sound lr hs
    obtain ⟨q1, lr1, hrun, h1f, h1len, _, h1none⟩ := while_sound lr hs
    have hpos1 : 0 < lr1.buff_length := by rw [h1len]; exact hs.1
    rw [next_inside, hw, hrun]
    cases q1 with
    | some q => rfl
    | none =>
      obtain ⟨l, hh⟩ := h1none rfl
      have hfuel1 : next_fuel lr1 = next_fuel lr := by
        unfold next_fuel; rw [h1f]
      cases hf : lr1.f with
      | none => simp only [hf]; rfl
      | some f =>
        have hri := refill_inside_hungry lr1 l f hh
        obtain ⟨ok, lr3, hre, hs3, hok, _⟩ := refill_sound lr1 l f hh hpos1 hf
        cases ok with
        | false =>
          simp only [hf, hri, hre]; rfl
        | true =>
          obtain ⟨_, h3fuel⟩ := hok rfl
          have hrec := ih lr3 hs3 (by omega)
          simp only [hf, hri, hre, hrec]; rfl

/-- C15: from the reader `lafe_line_reader` gives and from every reader a call
leaves, one call of `lafe_line_reader_next` keeps every access inside the
buffer (each `strcspn` and write of a terminator in
`lafe_line_reader_find_eol`, the read of `line_start[0]`, the `memmove`, the
`fread` of `bytes_wanted` bytes and the write of `*buff_end`), it returns and
leaves a reader of the same kind; and when it returns status 0 the pointers,
as offsets from `buff`, are ordered `line_start <= line_end <= buff_end <=
buff_length`, the byte at `buff_end` is zero and the buffer holds
`buff_length + 1` bytes. -/
theorem pointers_stay_inside (lr : struct_lafe_line_reader) (hs : Sound lr) :
    call_inside lr = true ∧
    ∃ st q lr', lafe_line_reader_next lr = some (st, q, lr') ∧ Sound lr' ∧
      (st = 0 →
        lr'.line_start ≤ lr'.line_end ∧ lr'.line_end ≤ lr'.buff_end ∧
        lr'.buff_end ≤ lr'.buff_length ∧ lr'.buff.getD lr'.buff_end 1 = 0 ∧
        lr'.buff.length = lr'.buff_length + 1) := by
  refine ⟨next_inside_sound (next_fuel lr) lr hs (Nat.le_refl _), ?_⟩
  obtain ⟨st, q, lr', hrun, hs', _, hres⟩ :=
    next_loop_sound (next_fuel lr) lr hs (Nat.le_refl _)
  refine ⟨st, q, lr', hrun, hs', ?_⟩
  intro hst
  rcases hres with ⟨_, ⟨A, l, R, G, sh⟩, _⟩ | ⟨h, _⟩
  · have hlen : lr'.buff.length = A.length + l.length + R.length + 1 + G.length := by
      rw [sh.buff]; simp; omega
    have hget : lr'.buff.getD lr'.buff_end 1 = 0 := by
      have e : A.length + l.length + R.length = (A ++ l ++ R).length := by
        simp [Nat.add_assoc]
      rw [sh.buff, sh.fin, e]
      exact getD_at_length (A ++ l ++ R) 0 G 1
    have hsize := sh.size
    refine ⟨?_, ?_, ?_, hget, hsize⟩
    · rw [sh.start, sh.stop]; omega
    · rw [sh.stop, sh.fin]; omega
    · rw [sh.fin]; omega
  · rw [h] at hst; exact absurd hst (by decide)

/-- C15, at the reader of the content `'a' LF 'b'` with a buffer length of 1,
whose first call doubles the buffer and refills it; the check of the accesses
evaluated there, and on a reader whose buffer lacks the zero at `buff_end`,
where `strcspn` runs off the allocation. -/
theorem pointers_stay_inside_witness :
    (call_inside (reader_on (fopen [97, 10, 98]) 0 1 64 100) = true ∧
      ∃ st q lr', lafe_line_reader_next (reader_on (fopen [97, 10, 98]) 0 1 64 100) =
          some (st, q, lr') ∧ Sound lr' ∧
        (st = 0 →
          lr'.line_start ≤ lr'.line_end ∧ lr'.line_end ≤ lr'.buff_end ∧
          lr'.buff_end ≤ lr'.buff_length ∧ lr'.buff.getD lr'.buff_end 1 = 0 ∧
          lr'.buff.length = lr'.buff_length + 1)) ∧
    lafe_line_reader_next (reader_on (fopen [97, 10, 98]) 0 1 64 100) =
      some (0, some 0, { f := some { data := [98], bad := false, eof := false, err := false }, buff := [97, 0, 0], buff_end := 2, line_start := 2, line_end := 2, p := 0, pathname := [45], buff_length := 2, nullSeparator := 0, ret := 0, size_bits := 64, heap_avail := 100, junk := 255 }) ∧
    call_inside { f := none, buff := [97, 10, 98], buff_end := 3, line_start := 0, line_end := 1, p := 0, pathname := [45], buff_length := 2, nullSeparator := 0, ret := 0, size_bits := 64, heap_avail := 100, junk := 255 } = false :=
  ⟨pointers_stay_inside (reader_on (fopen [97, 10, 98]) 0 1 64 100)
      ⟨by decide, Or.inl ⟨rfl, rfl, rfl, rfl, by decide⟩⟩,
    by decide, by decide⟩

/-! ## Further properties of the header block -/

/-- C11: `B_HEADER_MAGIC` is the eight bytes `u s t a r`, zero, `0x30`,
`0x30`; eight is `B_HEADER_MAGIC_SIZE` and the width of the magic field, so
the literal fills the field: cutting it at the width loses nothing and no
byte of the field is left to pad. -/
theorem magic_fills_field :
    B_HEADER_MAGIC = [117, 115, 116, 97, 114, 0x00, 0x30, 0x30] ∧
    B_HEADER_MAGIC.length = 8 ∧
    B_HEADER_MAGIC.length = B_HEADER_MAGIC_SIZE ∧
    field_span "magic" = some (257, 257 + B_HEADER_MAGIC.length) ∧
    B_HEADER_MAGIC.take B_HEADER_MAGIC_SIZE = B_HEADER_MAGIC ∧
    B_HEADER_MAGIC_SIZE - B_HEADER_MAGIC.length = 0 := by
  refine ⟨by decide, by decide, by decide, by decide, by decide, by decide⟩

theorem octal_text_take_zeros (v : Nat) (h : v < 8 ^ 3) :
    (printf_octal B_HEADER_MODE_FORMAT v).take 4 = [48, 48, 48, 48] := by
  have hfit : v % 2 ^ arg_bits B_HEADER_MODE_FORMAT = v := by
    apply Nat.mod_eq_of_lt
    have : (8 : Nat) ^ 3 < 2 ^ arg_bits B_HEADER_MODE_FORMAT := by decide
    omega
  have hlen : (octal_text v).length ≤ 3 := by
    rw [octal_text_length]; exact digits_length_le v 3 h
  rw [printf_octal_eq, hfit]
  have hp : B_HEADER_MODE_FORMAT.precision = 7 := rfl
  rw [hp]
  obtain ⟨k, hk⟩ : ∃ k, 7 - (octal_text v).length = 4 + k := ⟨3 - (octal_text v).length, by omega⟩
  rw [hk, List.replicate_add, List.append_assoc]
  have : (List.replicate 4 48 : List Nat).length = 4 := by simp
  have h4 := take_at_length (List.replicate 4 48) (List.replicate k 48 ++ octal_text v)
  rw [this] at h4
  rw [h4]
  rfl

/-- C16: whatever the mode, the bits the mask `S_IPERM` keeps are at most
`0777`; `B_HEADER_MODE_FORMAT` writes them with exactly seven octal digits,
the first four of them `0`, which denote the masked mode and, followed by a
zero byte, fill the eight bytes of the mode field; no file-type bit
(`0170000`) and none of the setuid, setgid and sticky bits (`07000`) is left
in the masked mode. -/
theorem mode_mask_format (mode : Nat) :
    Nat.land mode S_IPERM ≤ 0o777 ∧
    (printf_octal B_HEADER_MODE_FORMAT (Nat.land mode S_IPERM)).length = 7 ∧
    (∀ c ∈ printf_octal B_HEADER_MODE_FORMAT (Nat.land mode S_IPERM), 48 ≤ c ∧ c ≤ 55) ∧
    (printf_octal B_HEADER_MODE_FORMAT (Nat.land mode S_IPERM)).take 4 = [48, 48, 48, 48] ∧
    octal_value (printf_octal B_HEADER_MODE_FORMAT (Nat.land mode S_IPERM)) =
      Nat.land mode S_IPERM ∧
    (printf_octal B_HEADER_MODE_FORMAT (Nat.land mode S_IPERM) ++ [0]).length =
      B_HEADER_MODE_SIZE ∧
    Nat.land (Nat.land mode S_IPERM) 0o170000 = 0 ∧
    Nat.land (Nat.land mode S_IPERM) 0o7000 = 0 := by
  have hle : Nat.land mode S_IPERM ≤ 0o777 := Nat.and_le_right
  have hfit : Nat.land mode S_IPERM < 2 ^ arg_bits B_HEADER_MODE_FORMAT := by
    have : (0o777 : Nat) < 2 ^ arg_bits B_HEADER_MODE_FORMAT := by decide
    omega
  have h7 : Nat.land mode S_IPERM < 8 ^ B_HEADER_MODE_FORMAT.precision := by
    have : (0o777 : Nat) < 8 ^ B_HEADER_MODE_FORMAT.precision := by decide
    omega
  have h3 : Nat.land mode S_IPERM < 8 ^ 3 := by
    have : (0o777 : Nat) < 8 ^ 3 := by decide
    omega
  have hlen := printf_octal_length B_HEADER_MODE_FORMAT _ hfit h7
  refine ⟨hle, hlen, printf_octal_digits _ _, octal_text_take_zeros _ h3, ?_, ?_, ?_, ?_⟩
  · rw [printf_octal_value, Nat.mod_eq_of_lt hfit]
  · rw [List.length_append, hlen]; rfl
  · show (mode &&& S_IPERM) &&& 0o170000 = 0
    rw [Nat.and_assoc]
    have : S_IPERM &&& 0o170000 = 0 := by decide
    rw [this, Nat.and_zero]
  · show (mode &&& S_IPERM) &&& 0o7000 = 0
    rw [Nat.and_assoc]
    have : S_IPERM &&& 0o7000 = 0 := by decide
    rw [this, Nat.and_zero]

end ArchiveTarBuilder
